import Mathlib

/-!
Verification development for the adjudication core of the DiplomacyGM engine.

The Python source under `DiploGM/adjudicator/` is translated into executable
Lean definitions.  Provinces are identified by natural numbers (or `Fin n`
where a finite universe is needed for termination measures); the container
classes from `DiploGM/models/` (Board, Player, Province, Unit, Order), which
are not part of the adjudicator sources, are modelled from the specification
where noted.  Loops of the Python source that are not structurally recursive
are embedded with an explicit fuel parameter, `none` meaning that the fuel ran
out; termination of the source loop is expressed by theorems producing
sufficient fuel.
-/

set_option linter.unusedVariables false

inductive UnitType where
  | ARMY
  | FLEET
  deriving DecidableEq

inductive ProvinceType where
  | LAND
  | SEA
  | COAST
  deriving DecidableEq

inductive Resolution where
  | SUCCEEDS
  | FAILS
  deriving DecidableEq

inductive ResolutionState where
  | UNRESOLVED
  | GUESSING
  | RESOLVED
  deriving DecidableEq

inductive OrderType where
  | MOVE
  | SUPPORT
  | CONVOY
  | CORE
  | HOLD
  deriving DecidableEq

inductive OrderValidity where
  | VALID
  | VALID_WITH_CONVOY
  | MISMATCHED_ORDER
  | INVALID
  deriving DecidableEq

/-! ## Build phase (`builds_adjudicator.py`) -/

/-- Orders relevant to the build phase (`models/order.py` variants `Build` and
`Disband`; every other order kind is inert in `_adjudicate_order`). -/
inductive BOrder where
  | Build (province : ℕ) (unit_type : UnitType) (coast : Option ℕ)
  | Disband (province : ℕ)
  | OtherOrder
  deriving DecidableEq

/-- Province data read by the build adjudicator: supply-center flag, owner,
core owner, `fleet_adjacent`, `get_multiple_coasts()` and the occupying unit
(owner and type).  Modelled from the spec: the `Province` container class is
not among the adjudicator sources. -/
structure BProv where
  has_supply_center : Bool
  owner : Option ℕ
  core : Option ℕ
  fleet_adjacent : Bool
  multiple_coasts : List ℕ
  unit : Option (ℕ × UnitType)
  deriving DecidableEq

/-- Player data read by the build adjudicator.  Modelled from the spec: the
`Player` container class is not among the adjudicator sources; `units` is the
list of provinces occupied by the player's units, and `build_orders` is the
player's submitted build-phase orders in submission order. -/
structure BPlayer where
  pid : ℕ
  centers : ℕ
  units : List ℕ
  build_orders : List BOrder
  waived_orders : ℕ
  deriving DecidableEq

/-- The board state visible to the build adjudicator. -/
structure BBoard where
  prov : ℕ → BProv
  players : List BPlayer
  build_options : String
  has_vassals : Bool

/-- Modelled from the spec: `Board.create_unit` (`models/board.py` is not
among the adjudicator sources).  Per spec section 4.7 it places the new unit
in the province and adds it to the player's unit list. -/
def create_unit (B : BBoard) (ut : UnitType) (pid : ℕ) (pr : ℕ) : BBoard :=
  { B with
    prov := fun q => if q = pr then { B.prov pr with unit := some (pid, ut) } else B.prov q,
    players := B.players.map
      (fun pl => if pl.pid = pid then { pl with units := pl.units ++ [pr] } else pl) }

/-- Modelled from the spec: `Board.delete_unit` (`models/board.py` is not
among the adjudicator sources).  Per spec section 4.7 it clears the
province's occupancy and removes the unit from its (the occupant's) player. -/
def delete_unit (B : BBoard) (pr : ℕ) : BBoard :=
  match (B.prov pr).unit with
  | none => B
  | some (q, _) =>
    { B with
      prov := fun r => if r = pr then { B.prov pr with unit := none } else B.prov r,
      players := B.players.map
        (fun pl => if pl.pid = q then { pl with units := pl.units.erase pr } else pl) }

/-- `BuildsAdjudicator._adjudicate_order`: returns the change to the running
budget together with the updated board. -/
def builds_adjudicate_order (B : BBoard) (o : BOrder) (available : Int) (pid : ℕ) :
    Int × BBoard :=
  match o with
  | .Build pr ut coast =>
    if 0 < available then
      if ut = UnitType.FLEET ∧ (B.prov pr).fleet_adjacent = false then (0, B)
      else if ut = UnitType.FLEET ∧ (B.prov pr).multiple_coasts ≠ [] ∧
          coast ∉ (B.prov pr).multiple_coasts.map some then (0, B)
      else if (B.prov pr).unit ≠ none then (0, B)
      else if (B.prov pr).has_supply_center = false ∨ (B.prov pr).owner ≠ some pid then (0, B)
      else if (B.prov pr).core ≠ some pid ∧ B.build_options ≠ "anywhere" then (0, B)
      else (-1, create_unit B ut pid pr)
    else (0, B)
  | .Disband pr =>
    if available < 0 then
      if (B.prov pr).unit = none then (0, B)
      else (1, delete_unit B pr)
    else (0, B)
  | .OtherOrder => (0, B)

/-- One iteration of the player loop of `BuildsAdjudicator.run`: the player's
budget is `len(player.centers) - len(player.units)` read from the current
board; a zero budget skips the player, otherwise the player's build orders
are folded in submission order, threading the budget. -/
def builds_process_player (B : BBoard) (pid : ℕ) : BBoard :=
  let pl := (B.players.find? (fun p => p.pid = pid)).getD ⟨pid, 0, [], [], 0⟩
  let available : Int := (pl.centers : Int) - (pl.units.length : Int)
  if available = 0 then B
  else (pl.build_orders.foldl
        (fun st o =>
          let r := builds_adjudicate_order st.2 o st.1 pid
          (st.1 + r.1, r.2))
        (available, B)).2

/-- `BuildsAdjudicator.run`, for boards without the `vassal system` flag
(the vassal political layer of `_vassal_adju` is outside the claims treated
here; a board with the flag is mapped to `none`).  After the player loop,
every player's `build_orders` and `waived_orders` are cleared. -/
def runBuilds (B : BBoard) : Option BBoard :=
  if B.has_vassals then none
  else
    let B1 := (B.players.map (fun p => p.pid)).foldl builds_process_player B
    some { B1 with
           players := B1.players.map (fun pl => { pl with build_orders := [], waived_orders := 0 }) }

/-- Board used by the witnesses of the build-phase claims. -/
def buildsWitnessBoard : BBoard :=
  ⟨fun _ => ⟨true, some 3, some 3, true, [], none⟩, [⟨0, 1, [10], [], 0⟩], "classic", false⟩

/-! ## Retreat phase (`retreats_adjudicator.py`) -/

/-- Orders relevant to the retreat phase; everything that is not a
`RetreatMove` (including a missing order, replaced by `NMR()` in
`_validate_orders`) is grouped as `OtherOrder`. -/
inductive ROrder where
  | RetreatMove (dest : ℕ) (coast : Option ℕ)
  | OtherOrder
  deriving DecidableEq

/-- A unit as seen by the retreat adjudicator.  Modelled from the spec: the
`Unit` container class is not among the adjudicator sources;
`retreat_options` is the optional set of (province, coast) pairs populated
when the unit was dislodged. -/
structure RUnit where
  uid : ℕ
  player : ℕ
  province : ℕ
  coast : Option ℕ
  order : Option ROrder
  retreat_options : Option (List (ℕ × Option ℕ))
  deriving DecidableEq

/-- Province state read and written during retreats.  Modelled from the
spec: the `Province` container class is not among the adjudicator sources. -/
structure RProv where
  unit : Option ℕ
  dislodged_unit : Option ℕ
  has_supply_center : Bool
  owner : Option ℕ
  deriving DecidableEq

/-- The board state visible to the retreat adjudicator; `players` maps a
player id to the list of its unit ids. -/
structure RBoard where
  units : List RUnit
  prov : ℕ → RProv
  is_fall : Bool
  players : List (ℕ × List ℕ)
  has_vassals : Bool

/-- Update a single province of a retreat board. -/
def rSetProv (B : RBoard) (p : ℕ) (f : RProv → RProv) : RBoard :=
  { B with prov := fun q => if q = p then f (B.prov q) else B.prov q }

/-- Modelled from the spec: `Board.change_owner` (`models/board.py` is not
among the adjudicator sources); per spec section 4.7 it idempotently sets
the province's owner. -/
def rChangeOwner (B : RBoard) (p : ℕ) (pl : ℕ) : RBoard :=
  rSetProv B p (fun q => { q with owner := some pl })

/-- The per-unit validity test of `RetreatsAdjudicator._validate_orders`:
`some (d, c)` when the unit's order is a `RetreatMove` whose destination and
coast pair is among its `retreat_options`, otherwise `none` (the unit is
marked for deletion). -/
def retreats_valid_dest (u : RUnit) : Option (ℕ × Option ℕ) :=
  match u.order with
  | some (.RetreatMove d c) =>
    match u.retreat_options with
    | some opts => if (d, c) ∈ opts then some (d, c) else none
    | none => none
  | _ => none

/-- Append a retreater to the destination group map of `_validate_orders`
(`retreats_by_destination`), keeping destination insertion order. -/
def addToGroup : List (ℕ × List ℕ) → ℕ → ℕ → List (ℕ × List ℕ)
  | [], d, uid => [(d, [uid])]
  | g :: gs, d, uid => if g.1 = d then (g.1, g.2 ++ [uid]) :: gs else g :: addToGroup gs d uid

/-- One unit step of the loop of `RetreatsAdjudicator._validate_orders`. -/
def retreats_validate_step (B : RBoard) (acc : List (ℕ × List ℕ) × List ℕ) (u : RUnit) :
    List (ℕ × List ℕ) × List ℕ :=
  if (B.prov u.province).dislodged_unit ≠ some u.uid then acc
  else
    match retreats_valid_dest u with
    | some (d, _) => (addToGroup acc.1 d u.uid, acc.2)
    | none => (acc.1, acc.2 ++ [u.uid])

/-- `RetreatsAdjudicator._validate_orders`: the destination groups (in
destination insertion order) and the units marked for deletion. -/
def retreats_validate_orders (B : RBoard) : List (ℕ × List ℕ) × List ℕ :=
  B.units.foldl (retreats_validate_step B) ([], [])

/-- The body of the successful-retreat branch of `RetreatsAdjudicator.run`:
clear the dislodged slot of the unit's province, move the unit, occupy the
destination, and transfer ownership when the destination has no supply
center or the turn is FALL. -/
def retreats_apply_retreat (B : RBoard) (u : RUnit) (dP : ℕ) (dC : Option ℕ) : RBoard :=
  let B1 := rSetProv B u.province (fun p => { p with dislodged_unit := none })
  let B2 := { B1 with units := B1.units.map (fun v =>
      if v.uid = u.uid then { v with province := dP, coast := dC } else v) }
  let B3 := rSetProv B2 dP (fun p => { p with unit := some u.uid })
  if ¬(B.prov dP).has_supply_center = true ∨ B.is_fall = true then rChangeOwner B3 dP u.player
  else B3

/-- Modelled from the spec: deletion of a retreat-phase unit
(`unit.player.units.remove(unit)`, `board.units.remove(unit)` and clearing of
the dislodged slot, spec section 4.4); `models` classes are not among the
adjudicator sources. -/
def retreats_delete_unit (B : RBoard) (uid : ℕ) : RBoard :=
  match B.units.find? (fun u => u.uid = uid) with
  | none => B
  | some u =>
    let B1 := { B with
      units := B.units.eraseP (fun v => v.uid = uid),
      players := B.players.map
        (fun pl => if pl.1 = u.player then (pl.1, pl.2.erase uid) else pl) }
    rSetProv B1 u.province (fun p => { p with dislodged_unit := none })

/-- One destination-group step of the loop of `RetreatsAdjudicator.run`:
groups with more than one retreater bounce (all contenders join the deletion
list); a singleton group's unit retreats to its destination. -/
def retreats_group_step (st : RBoard × List ℕ) (g : ℕ × List ℕ) : RBoard × List ℕ :=
  if g.2.length ≠ 1 then (st.1, st.2 ++ g.2)
  else
    match g.2 with
    | [uid] =>
      match st.1.units.find? (fun u => u.uid = uid) with
      | some u =>
        match u.order with
        | some (.RetreatMove dP dC) => (retreats_apply_retreat st.1 u dP dC, st.2)
        | _ => (st.1, st.2 ++ [uid])
      | none => (st.1, st.2)
    | _ => (st.1, st.2)

/-- `RetreatsAdjudicator.run`, for boards where the FALL vassal handling is
not triggered (a FALL board with the `vassal system` flag is mapped to
`none`; `_handle_vassals` is outside the claims treated here). -/
def runRetreats (B : RBoard) : Option RBoard :=
  let v := retreats_validate_orders B
  let st := v.1.foldl retreats_group_step (B, v.2)
  let b2 := st.2.foldl retreats_delete_unit st.1
  let b3 := { b2 with units := b2.units.map (fun u =>
      { u with order := none, retreat_options := none }) }
  if B.is_fall = true ∧ B.has_vassals = true then none else some b3

/-- Look a destination up in the group map of `_validate_orders`. -/
def lookupGroup (groups : List (ℕ × List ℕ)) (d : ℕ) : Option (List ℕ) :=
  (groups.find? (fun g => g.1 = d)).map Prod.snd

/-- The unit ids among `us` of dislodged units validly retreating to
province `p` (in list order). -/
def retreatersIn (B : RBoard) (us : List RUnit) (p : ℕ) : List ℕ :=
  (us.filter (fun u => decide ((B.prov u.province).dislodged_unit = some u.uid ∧
    (retreats_valid_dest u).map Prod.fst = some p))).map RUnit.uid

/-- The unit ids of the dislodged units validly retreating to province `p`
(in board order): the specification-level description of the destination
groups built by `_validate_orders`. -/
def retreatersTo (B : RBoard) (p : ℕ) : List ℕ :=
  retreatersIn B B.units p

/-- The unit ids among `us` marked for deletion by `_validate_orders`
(dislodged units whose order is not a `RetreatMove` into their retreat
options). -/
def retreatDeletesIn (B : RBoard) (us : List RUnit) : List ℕ :=
  (us.filter (fun u => decide ((B.prov u.province).dislodged_unit = some u.uid ∧
    retreats_valid_dest u = none))).map RUnit.uid

/-- Combine an existing group entry with newly appended retreaters. -/
def combineGroup : Option (List ℕ) → List ℕ → Option (List ℕ)
  | some l, l2 => some (l ++ l2)
  | none, [] => none
  | none, l2 => some l2

/-- The state of `RetreatsAdjudicator.run` after the destination-group loop:
the board with all single retreaters moved, and the full deletion list. -/
def retreatsStage1 (B : RBoard) : RBoard × List ℕ :=
  (retreats_validate_orders B).1.foldl retreats_group_step
    (B, (retreats_validate_orders B).2)

/-- The state of `RetreatsAdjudicator.run` after the deletion loop. -/
def retreatsStage2 (B : RBoard) : RBoard :=
  (retreatsStage1 B).2.foldl retreats_delete_unit (retreatsStage1 B).1

/-- Board used by the witness of the retreat-phase claim: one dislodged
unit (id 7, at province 1) with no retreat order. -/
def retreatsWitnessBoard : RBoard :=
  ⟨[⟨7, 0, 1, none, none, none⟩],
   fun q => if q = 1 then ⟨none, some 7, false, none⟩ else ⟨none, none, false, none⟩,
   false, [(0, [7])], false⟩

/-! ## Order validation (`validate_order.py`) -/

/-- Orders relevant to convoy-move validation (`Move` and `ConvoyTransport`
of `models/order.py`). -/
inductive VOrder (n : ℕ) where
  | Move (dest : Fin n)
  | ConvoyTransport (src dst : Fin n)
  | OtherOrder
  deriving DecidableEq

/-- A unit as seen by the validator.  Modelled from the spec: the `Unit`
container class is not among the adjudicator sources. -/
structure VUnit (n : ℕ) where
  unit_type : UnitType
  order : Option (VOrder n)
  deriving DecidableEq

/-- A province as seen by the validator: type, adjacency and occupant.
Modelled from the spec: the `Province` container class is not among the
adjudicator sources.  Provinces are the elements of `Fin n`. -/
structure VProvince (n : ℕ) where
  ptype : ProvinceType
  adjacent : List (Fin n)
  unit : Option (VUnit n)
  deriving DecidableEq

/-- A board for the validator. -/
structure VBoard (n : ℕ) where
  prov : Fin n → VProvince n

/-- `adjacent_could_convoy` of `convoy_is_possible`: the adjacent province
is a sea province occupied by a fleet. -/
def adjacent_could_convoy {n : ℕ} (B : VBoard n) (a : Fin n) : Bool :=
  match (B.prov a).unit with
  | some u => (B.prov a).ptype == ProvinceType.SEA && u.unit_type == UnitType.FLEET
  | none => false

/-- `adjacent_did_convoy` of `convoy_is_possible`: additionally the fleet
is issuing a `ConvoyTransport` for exactly this source and destination. -/
def adjacent_did_convoy {n : ℕ} (B : VBoard n) (a start endP : Fin n) : Bool :=
  adjacent_could_convoy B a &&
    match (B.prov a).unit with
    | some u =>
      match u.order with
      | some (VOrder.ConvoyTransport s d) => s == start && d == endP
      | _ => false
    | none => false

/-- The while loop of `convoy_is_possible`, with an explicit fuel parameter
and recording (as a trace) the provinces processed past the visited check.
A popped province already in `visited` is skipped; a processed province
whose adjacency contains the target ends the search with `true`; otherwise
its adjacent convoying fleets are appended to the queue (without a visited
check, exactly as in the source). -/
def convoy_is_possible_loop {n : ℕ} (B : VBoard n) (start endP : Fin n) (check : Bool) :
    ℕ → Finset (Fin n) → List (Fin n) → List (Fin n) → Option (Bool × List (Fin n))
  | 0, _, _, _ => none
  | fuel + 1, visited, queue, trace =>
    match queue with
    | [] => some (false, trace)
    | current :: rest =>
      if current ∈ visited then
        convoy_is_possible_loop B start endP check fuel visited rest trace
      else
        if endP ∈ (B.prov current).adjacent then some (true, trace ++ [current])
        else
          convoy_is_possible_loop B start endP check fuel (insert current visited)
            (rest ++ (B.prov current).adjacent.filter (fun a =>
              adjacent_could_convoy B a && (!check || adjacent_did_convoy B a start endP)))
            (trace ++ [current])

/-- `convoy_is_possible(start, end, check_fleet_orders)`, fuelled;
the second component of the result is the trace of processed provinces. -/
def convoy_is_possible {n : ℕ} (B : VBoard n) (fuel : ℕ) (start endP : Fin n)
    (check_fleet_orders : Bool) : Option (Bool × List (Fin n)) :=
  convoy_is_possible_loop B start endP check_fleet_orders fuel ∅ [start] []

/-- `_validate_move_army`: the destination must be adjacent and not a sea
province (the explanatory reason strings of the source are dropped). -/
def validate_move_army {n : ℕ} (B : VBoard n) (p dest : Fin n) : OrderValidity :=
  if dest ∉ (B.prov p).adjacent then OrderValidity.INVALID
  else if (B.prov dest).ptype = ProvinceType.SEA then OrderValidity.INVALID
  else OrderValidity.VALID

/-- `_validate_convoymove_order`, fuelled (`none` when a convoy search runs
out of fuel; the `assert unit is not None` of the source is also `none`).
The final redundant strict-path re-check of the source (line 112) is kept. -/
def validate_convoymove_order {n : ℕ} (B : VBoard n) (fuel : ℕ) (p dest : Fin n) :
    Option OrderValidity :=
  match (B.prov p).unit with
  | none => none
  | some u =>
    if u.unit_type ≠ UnitType.ARMY then some OrderValidity.INVALID
    else if (B.prov dest).ptype = ProvinceType.SEA then some OrderValidity.INVALID
    else if dest = p then some OrderValidity.INVALID
    else
      match convoy_is_possible B fuel p dest true with
      | none => none
      | some (true, _) => some OrderValidity.VALID_WITH_CONVOY
      | some (false, _) =>
        match convoy_is_possible B fuel dest p false with
        | none => none
        | some (true, _) => some OrderValidity.MISMATCHED_ORDER
        | some (false, _) =>
          match convoy_is_possible B fuel p dest true with
          | none => none
          | some (false, _) => some OrderValidity.INVALID
          | some (true, _) => some OrderValidity.VALID

/-- The army `Move` branch of `order_is_valid`: validate the land move,
and on failure retry as a convoy.  Fleet moves (whose validation is about
coasts) are outside the treated claims and map to `none`. -/
def order_is_valid_army_move {n : ℕ} (B : VBoard n) (fuel : ℕ) (p dest : Fin n) :
    Option OrderValidity :=
  match (B.prov p).unit with
  | none => some OrderValidity.INVALID
  | some u =>
    if u.unit_type = UnitType.ARMY then
      match validate_move_army B p dest with
      | OrderValidity.VALID => some OrderValidity.VALID
      | _ => validate_convoymove_order B fuel p dest
    else none

/-- A convoy path in the sense of the fuelled search: some fuel makes the
search return `true`. -/
def ConvoyPathExists {n : ℕ} (B : VBoard n) (start endP : Fin n) (check : Bool) : Prop :=
  ∃ fuel r, convoy_is_possible B fuel start endP check = some r ∧ r.1 = true

/-- Board of the C4 counterexample: army at province 0 moving to province 1,
a convoying-capable (but not convoying) fleet at sea province 2, with
one-way adjacency 0 → 2 → 1. -/
def asymmetricConvoyBoard : VBoard 3 :=
  ⟨fun i =>
    if i = 0 then ⟨ProvinceType.LAND, [2], some ⟨UnitType.ARMY, some (VOrder.Move 1)⟩⟩
    else if i = 1 then ⟨ProvinceType.LAND, [], none⟩
    else ⟨ProvinceType.SEA, [1], some ⟨UnitType.FLEET, some VOrder.OtherOrder⟩⟩⟩

/-- The breadth-first search of `_adjudicate_convoys_for_order`
(`moves_adjudicator.py`), fuelled, over an adjacency map, the convoy orders
attached to the move (order id and convoying fleet's province) and an
oracle standing for `self._resolve_order`; the trace records every
processed queue entry (the source has no visited check at the pop). -/
def adjudicate_convoys_loop {n : ℕ} (adj : Fin n → List (Fin n))
    (resolveO : ℕ → Resolution) (convoys : List (ℕ × Fin n)) (srcP dstP : Fin n) :
    ℕ → Finset (Fin n) → List (Fin n) → List (Fin n) →
      Option (Resolution × List (Fin n))
  | 0, _, _, _ => none
  | fuel + 1, visited, queue, trace =>
    match queue with
    | [] => some (Resolution.FAILS, trace)
    | current :: rest =>
      if current ≠ srcP ∧ dstP ∈ adj current then
        some (Resolution.SUCCEEDS, trace ++ [current])
      else
        adjudicate_convoys_loop adj resolveO convoys srcP dstP fuel
          (insert current visited)
          (rest ++ (convoys.filter (fun cv => cv.2 ∈ adj current ∧
              cv.2 ∉ insert current visited ∧
              resolveO cv.1 = Resolution.SUCCEEDS)).map Prod.snd)
          (trace ++ [current])

/-- `_adjudicate_convoys_for_order`, fuelled, starting from the order's
source province. -/
def adjudicate_convoys_for_order {n : ℕ} (adj : Fin n → List (Fin n))
    (resolveO : ℕ → Resolution) (convoys : List (ℕ × Fin n)) (srcP dstP : Fin n)
    (fuel : ℕ) : Option (Resolution × List (Fin n)) :=
  adjudicate_convoys_loop adj resolveO convoys srcP dstP fuel ∅ [srcP] []

/-- Adjacency map on four provinces where both province 1 and province 2
are adjacent to the source 0 and to each other: a convoying fleet's
province can then be enqueued twice before its first pop. -/
def dupVisitAdj : Fin 4 → List (Fin 4) := fun i =>
  if i = 0 then [1, 2] else if i = 1 then [2] else if i = 2 then [1] else []

/-! ## Movement phase: validation flags and the resolver
(`moves_adjudicator.py`) -/

/-- The kind of a submitted order, as matched by the `isinstance` checks of
`_validate_unit`.  Modelled from the spec: the order classes live in
`models/order.py`, which is not among the adjudicator sources. -/
inductive UOrderKind where
  | Hold
  | Core
  | Move
  | Support
  | ConvoyT
  | RetreatK
  | NMRk
  deriving DecidableEq

/-- `is_valid_result` (`validate_order.py`). -/
def is_valid_result (v : OrderValidity) : Bool :=
  v == OrderValidity.VALID || v == OrderValidity.VALID_WITH_CONVOY

/-- The flags `_validate_unit` leaves on the adjudicable order
(`is_convoy`, `is_valid`, `not_supportable`) and on the original order
(`has_failed`). -/
structure VFlags where
  is_convoy : Bool
  is_valid : Bool
  has_failed : Bool
  not_supportable : Bool
  deriving DecidableEq

/-- `_validate_unit` (lines 55-87): `kind` is the unit's order kind after
the `None → NMR()` substitution, `valid` the outcome of `order_is_valid`,
`hf0` the original order's prior `has_failed` flag.  A failed validation
marks the adjudicable order invalid and sets `has_failed`; `not_supportable`
is set when validation failed and the order is a `Core` or `Move`
(`isinstance(unit.order, (Core, Move))`); `is_convoy` records a
`VALID_WITH_CONVOY` outcome. -/
def validate_unit (kind : UOrderKind) (valid : OrderValidity) (hf0 : Bool) : VFlags :=
  let failed := ! is_valid_result valid
  let ns := failed && (kind == UOrderKind.Core || kind == UOrderKind.Move)
  { is_convoy := valid == OrderValidity.VALID_WITH_CONVOY
    is_valid := !failed
    has_failed := failed || hf0
    not_supportable := ns }

/-- The static data of an `AdjudicableOrder`.  Modelled from the spec for
the container fields (`adjudicator/defs.py` is not among the sources):
orders are indexed by id, provinces and countries by `ℕ`; `supports` lists
the ids of the supporting orders. -/
structure MOrder where
  uid : ℕ
  otype : OrderType
  country : ℕ
  source : ℕ
  dest : ℕ
  is_convoy : Bool
  is_valid : Bool
  not_supportable : Bool
  supports : List ℕ
  deriving DecidableEq

/-- The resolver's mutable state: per-order resolution state and
resolution, and the dependency stack `_dependencies`. -/
structure RSState where
  st : ℕ → ResolutionState
  res : ℕ → Resolution
  deps : List ℕ

/-- Set one order's resolution state. -/
def setSt (S : RSState) (i : ℕ) (v : ResolutionState) : RSState :=
  { S with st := fun j => if j = i then v else S.st j }

/-- Set one order's resolution. -/
def setRes (S : RSState) (i : ℕ) (v : Resolution) : RSState :=
  { S with res := fun j => if j = i then v else S.res j }

/-- `_backup_rule` (lines 402-428): pop the batch `deps[k:]` off the
dependency stack; if any order in the batch is a convoy, apply the Szykman
rule (every convoy in the batch RESOLVED with FAILS, every other order
UNRESOLVED), otherwise the circular-movement rule (every move RESOLVED with
SUCCEEDS, every other order UNRESOLVED). -/
def backup_rule (env : ℕ → MOrder) (S : RSState) (k : ℕ) : RSState :=
  let batch := S.deps.drop k
  let S1 : RSState := { S with deps := S.deps.take k }
  if batch.any (fun i => (env i).otype == OrderType.CONVOY) then
    batch.foldl (fun T i =>
      if (env i).otype == OrderType.CONVOY then
        setRes (setSt T i ResolutionState.RESOLVED) i Resolution.FAILS
      else setSt T i ResolutionState.UNRESOLVED) S1
  else
    batch.foldl (fun T i =>
      if (env i).otype == OrderType.MOVE then
        setRes (setSt T i ResolutionState.RESOLVED) i Resolution.SUCCEEDS
      else setSt T i ResolutionState.UNRESOLVED) S1

/-- `_resolve_order` (lines 343-400), fuelled, with `_adjudicate_order`
abstracted as a state-passing oracle `adjO`: guess FAILS, adjudicate, and
depending on the new dependencies either resolve, record the guess
dependency, or re-adjudicate under a SUCCEEDS guess and fall back to
`_backup_rule` when the two adjudications disagree. -/
def resolve_order (env : ℕ → MOrder) (adjO : ℕ → RSState → RSState × Resolution) :
    ℕ → RSState → ℕ → Option (RSState × Resolution)
  | 0, _, _ => none
  | fuel + 1, S, oid =>
    if S.st oid = ResolutionState.RESOLVED then some (S, S.res oid)
    else if S.st oid = ResolutionState.GUESSING then
      if oid ∈ S.deps then some (S, S.res oid)
      else some ({ S with deps := S.deps ++ [oid] }, S.res oid)
    else if (env oid).is_valid = false then
      some (setSt (setRes S oid Resolution.FAILS) oid ResolutionState.RESOLVED,
        Resolution.FAILS)
    else
      let k := S.deps.length
      let S1 := setSt (setRes S oid Resolution.FAILS) oid ResolutionState.GUESSING
      let p1 := adjO oid S1
      let S2 := p1.1
      let first := p1.2
      if S2.deps.length = k then
        if S2.st oid ≠ ResolutionState.RESOLVED then
          some (setSt (setRes S2 oid first) oid ResolutionState.RESOLVED, first)
        else some (S2, first)
      else if S2.deps.get? k ≠ some oid then
        some (setRes { S2 with deps := S2.deps ++ [oid] } oid first, first)
      else
        let S3 := (S2.deps.drop k).foldl
          (fun T i => setSt T i ResolutionState.UNRESOLVED) S2
        let S4 : RSState := { S3 with deps := S3.deps.take k }
        let S5 := setSt (setRes S4 oid Resolution.SUCCEEDS) oid ResolutionState.GUESSING
        let p2 := adjO oid S5
        let S6 := p2.1
        let second := p2.2
        if first = second then
          let S7 := (S6.deps.drop k).foldl
            (fun T i => setSt T i ResolutionState.UNRESOLVED) S6
          some (setRes (setSt { S7 with deps := S7.deps.take k } oid
            ResolutionState.RESOLVED) oid first, first)
        else
          resolve_order env adjO fuel (backup_rule env S6 k) oid

/-- Orders of the backup-rule witness: order 0 is a convoy, all others are
moves. -/
def c1Env : ℕ → MOrder := fun i =>
  if i = 0 then
    ⟨0, OrderType.CONVOY, 0, 0, 0, false, true, false, []⟩
  else
    ⟨i, OrderType.MOVE, 0, 0, 0, false, true, false, []⟩

/-- Resolver state of the backup-rule witness: dependency stack `[5, 0, 1]`
with every order unresolved. -/
def c1State : RSState :=
  ⟨fun _ => ResolutionState.UNRESOLVED, fun _ => Resolution.SUCCEEDS, [5, 0, 1]⟩

/-- Orders of the invalid-order witness: every adjudicable order is marked
invalid by validation. -/
def c5Env : ℕ → MOrder := fun i =>
  ⟨i, OrderType.MOVE, 0, 0, 1, false, false, true, []⟩

/-- Resolver state of the invalid-order witness: everything unresolved. -/
def c5State : RSState :=
  ⟨fun _ => ResolutionState.UNRESOLVED, fun _ => Resolution.SUCCEEDS, []⟩


/-- Static movement data derived in `MovesAdjudicator.__init__`: all
adjudicable orders by id, the ids of the MOVE orders per destination
province (`moves_by_destination`), and the id of the order whose unit
occupies a province (`orders_by_province`).  Modelled from the spec for the
container derivation; iteration over the Python sets is a list here. -/
structure MEnv where
  orders : ℕ → MOrder
  movesByDest : ℕ → List ℕ
  orderAtProv : ℕ → Option ℕ

/-- `_count_strength` (lines 273-278): 1 plus the number of supports that
resolve to SUCCEEDS and do not belong to the attacked country. -/
def count_strength (env : ℕ → MOrder) (resolveO : ℕ → Resolution) (oid : ℕ)
    (attacked_country : Option ℕ) : ℕ :=
  1 + ((env oid).supports.filter (fun s =>
    (resolveO s == Resolution.SUCCEEDS)
      && !(attacked_country == some (env s).country))).length

/-- The `head_on` flag of `_adjudicate_move_order`: the destination is
occupied by an order moving straight back, neither move convoyed. -/
def move_head_on (E : MEnv) (oid : ℕ) : Bool :=
  match E.orderAtProv (E.orders oid).dest with
  | some a => ((E.orders a).otype == OrderType.MOVE)
      && ((E.orders a).dest == (E.orders oid).source)
      && !(E.orders a).is_convoy && !(E.orders oid).is_convoy
  | none => false

/-- The `attacked_move` flag of `_adjudicate_move_order`: the destination is
empty of orders, or its order is a MOVE that resolves to SUCCEEDS. -/
def move_attacked_move (E : MEnv) (resolveO : ℕ → Resolution) (oid : ℕ) : Bool :=
  match E.orderAtProv (E.orders oid).dest with
  | some a => ((E.orders a).otype == OrderType.MOVE)
      && (resolveO a == Resolution.SUCCEEDS)
  | none => true

/-- The final loop of `_adjudicate_move_order` over `orders_to_overcome`:
skip invalid opponents and failed convoys, fail when the attack strength
does not exceed an opponent prevent strength. -/
def overcome_loop (E : MEnv) (resolveO cvO : ℕ → Resolution) (atk : ℕ) :
    List ℕ → Resolution
  | [] => Resolution.SUCCEEDS
  | opp :: rest =>
    if (E.orders opp).is_valid = false then overcome_loop E resolveO cvO atk rest
    else if (E.orders opp).is_convoy = true ∧ cvO opp = Resolution.FAILS then
      overcome_loop E resolveO cvO atk rest
    else if atk ≤ count_strength E.orders resolveO opp none then Resolution.FAILS
    else overcome_loop E resolveO cvO atk rest

/-- `_adjudicate_move_order` (lines 280-341), with `_resolve_order` and
`_adjudicate_convoys_for_order` abstracted as oracles `resolveO` / `cvO`:
fail a convoyed move with a failed convoy; against a head-on defender or a
defender that is not a succeeding move, fail outright when the defender
belongs to the mover's own country, else compare the attack strength to the
defender strength; finally overcome all competing moves to the same
destination. -/
def adjudicate_move_order (E : MEnv) (resolveO cvO : ℕ → Resolution)
    (oid : ℕ) : Resolution :=
  let o := E.orders oid
  if o.is_convoy = true ∧ cvO oid = Resolution.FAILS then Resolution.FAILS
  else
    let overcome0 := (E.movesByDest o.dest).filter (fun j => j ≠ oid)
    let atk_head := move_head_on E oid
    let atk_move := move_attacked_move E resolveO oid
    match E.orderAtProv o.dest with
    | some a =>
      if atk_head || !atk_move then
        if (E.orders a).country = o.country then Resolution.FAILS
        else
          let atk := count_strength E.orders resolveO oid (some (E.orders a).country)
          let opps :=
            if atk_head || (!((E.orders a).otype == OrderType.MOVE)
                && !(E.orders a).not_supportable) then
              count_strength E.orders resolveO a none
            else 1
          if atk ≤ opps then Resolution.FAILS
          else overcome_loop E resolveO cvO atk overcome0
      else
        let atk := count_strength E.orders resolveO oid none
        let overcome :=
          if (E.orders a).is_convoy = false then
            overcome0.filter (fun j => (E.orders j).source ≠ (E.orders a).dest ∨
              (E.orders j).is_convoy = true)
          else overcome0
        overcome_loop E resolveO cvO atk overcome
    | none =>
      let atk := count_strength E.orders resolveO oid none
      overcome_loop E resolveO cvO atk overcome0

/-- The unit / dislodged-unit occupancy of the provinces, the slice of the
board state that `_update_order` moves units in (unit ids per province). -/
structure UState where
  unitAt : ℕ → Option ℕ
  dislodgedAt : ℕ → Option ℕ

/-- `_update_order` (lines 118-146) scoped to occupancy: a successful MOVE
vacates its source when the base unit still occupies it, clears a spurious
dislodgement of the base unit at the source, dislodges whatever occupies
the destination and moves the base unit in; every other order leaves
occupancy unchanged (CORE and HOLD only touch coring and ownership). -/
def update_order_state (env : ℕ → MOrder) (res : ℕ → Resolution) (s : UState)
    (oid : ℕ) : UState :=
  let o := env oid
  if o.otype = OrderType.MOVE ∧ res oid = Resolution.SUCCEEDS then
    let u1 : ℕ → Option ℕ := fun q =>
      if q = o.source ∧ s.unitAt o.source = some o.uid then none else s.unitAt q
    let d1 : ℕ → Option ℕ := fun q =>
      if q = o.source ∧ s.dislodgedAt o.source = some o.uid then none
      else s.dislodgedAt q
    ⟨fun q => if q = o.dest then some o.uid else u1 q,
     fun q => if q = o.dest then u1 o.dest else d1 q⟩
  else s

/-- `_update_board` (lines 148-153) scoped to occupancy: raise (`none`)
when any adjudicable order is not RESOLVED — before any `_update_order`
mutation — and otherwise apply every order's update in iteration order. -/
def update_board (env : ℕ → MOrder) (res : ℕ → Resolution)
    (st : ℕ → ResolutionState) (ids : List ℕ) (s : UState) : Option UState :=
  if ids.all (fun i => st i == ResolutionState.RESOLVED) then
    some (ids.foldl (update_order_state env res) s)
  else none

/-- A successful MOVE order. -/
def isSM (env : ℕ → MOrder) (res : ℕ → Resolution) (i : ℕ) : Prop :=
  (env i).otype = OrderType.MOVE ∧ res i = Resolution.SUCCEEDS

instance isSM_decidable (env : ℕ → MOrder) (res : ℕ → Resolution) (i : ℕ) :
    Decidable (isSM env res i) := by
  unfold isSM
  infer_instance

/-- The first successful MOVE order of `L` into province `q`. -/
def incF (env : ℕ → MOrder) (res : ℕ → Resolution) (L : List ℕ) (q : ℕ) :
    Option ℕ :=
  L.find? (fun i => ((env i).otype == OrderType.MOVE)
    && (res i == Resolution.SUCCEEDS) && ((env i).dest == q))

/-- Occupancy invariant through the `_update_order` fold: after processing
the order ids `P`, a province holds the unit of its incoming successful
move once processed, else its initial occupant until that occupant has
moved away; a dislodged slot is filled exactly between the processing of
the incoming move and that of the occupant's own successful move. -/
def updInv (env : ℕ → MOrder) (res : ℕ → Resolution) (L : List ℕ)
    (occF : ℕ → Option ℕ) (P : List ℕ) (s : UState) : Prop :=
  ∀ q : ℕ,
    (s.unitAt q =
      match incF env res L q with
      | some m =>
        if m ∈ P then some (env m).uid
        else
          match occF q with
          | some j => if isSM env res j ∧ j ∈ P then none else some (env j).uid
          | none => none
      | none =>
        match occF q with
        | some j => if isSM env res j ∧ j ∈ P then none else some (env j).uid
        | none => none) ∧
    (s.dislodgedAt q =
      match incF env res L q, occF q with
      | some m, some j =>
        if m ∈ P ∧ ¬(isSM env res j ∧ j ∈ P) then some (env j).uid else none
      | _, _ => none)


/-- Orders of the C2 witness: order 0 is a supported move 0 → 1 by
country 0, order 1 a hold at province 1 by country 1, order 2 the
support. -/
def c2env : ℕ → MOrder := fun i =>
  if i = 0 then ⟨10, OrderType.MOVE, 0, 0, 1, false, true, false, [2]⟩
  else if i = 1 then ⟨11, OrderType.HOLD, 1, 1, 1, false, true, false, []⟩
  else if i = 2 then ⟨12, OrderType.SUPPORT, 0, 2, 1, false, true, false, []⟩
  else ⟨100 + i, OrderType.HOLD, 9, 9, 9, false, true, false, []⟩

/-- Resolutions of the C2 witness: the move and its support succeed. -/
def c2res : ℕ → Resolution := fun i =>
  if i = 1 then Resolution.FAILS else Resolution.SUCCEEDS

/-- Occupant orders per province for the C2 witness. -/
def c2occ : ℕ → Option ℕ := fun q =>
  if q = 0 then some 0 else if q = 1 then some 1
  else if q = 2 then some 2 else none

/-- Static data of the C2 witness. -/
def c2E : MEnv := ⟨c2env, fun q => if q = 1 then [0] else [], c2occ⟩

/-- Initial occupancy of the C2 witness. -/
def c2s0 : UState :=
  ⟨fun q => (c2occ q).map (fun j => (c2env j).uid), fun _ => none⟩

/-! ## Theorems -/



/-- C7: In build adjudication a `Build` order creates a unit (budget delta
`-1`, board extended by `create_unit`) iff the budget is positive, the
province is an owned supply center that is empty, fleets are only built in
fleet-adjacent provinces with a valid coast when several coasts exist, and
the province's core is the player unless the `anywhere` build option is
active; a rejected `Build` leaves the board unchanged.  Orders are folded in
submission order by `builds_process_player`, so builds stop being accepted as
soon as the running budget is no longer positive. -/
theorem C7_build_accepted_iff (B : BBoard) (pr : ℕ) (ut : UnitType) (coast : Option ℕ)
    (available : Int) (pid : ℕ) :
    ((builds_adjudicate_order B (.Build pr ut coast) available pid).1 = -1 ↔
      (0 < available ∧
       (B.prov pr).has_supply_center = true ∧ (B.prov pr).owner = some pid ∧
       (B.prov pr).unit = none ∧
       (ut = UnitType.FLEET → (B.prov pr).fleet_adjacent = true ∧
          ((B.prov pr).multiple_coasts ≠ [] → coast ∈ (B.prov pr).multiple_coasts.map some)) ∧
       ((B.prov pr).core = some pid ∨ B.build_options = "anywhere")))
    ∧ ((builds_adjudicate_order B (.Build pr ut coast) available pid).1 = -1 →
        (builds_adjudicate_order B (.Build pr ut coast) available pid).2 = create_unit B ut pid pr)
    ∧ ((builds_adjudicate_order B (.Build pr ut coast) available pid).1 ≠ -1 →
        (builds_adjudicate_order B (.Build pr ut coast) available pid).2 = B) := by
  have e : builds_adjudicate_order B (.Build pr ut coast) available pid =
      if (0 < available ∧
          (B.prov pr).has_supply_center = true ∧ (B.prov pr).owner = some pid ∧
          (B.prov pr).unit = none ∧
          (ut = UnitType.FLEET → (B.prov pr).fleet_adjacent = true ∧
            ((B.prov pr).multiple_coasts ≠ [] → coast ∈ (B.prov pr).multiple_coasts.map some)) ∧
          ((B.prov pr).core = some pid ∨ B.build_options = "anywhere"))
        then (-1, create_unit B ut pid pr) else (0, B) := by
    simp only [builds_adjudicate_order]
    split_ifs <;>
      first
        | rfl
        | (exfalso;
           simp only [Bool.not_eq_false, Bool.not_eq_true, not_or, not_and, ne_eq,
             not_not, not_forall, not_exists] at *;
           first | tauto | simp_all)
  rw [e]
  split_ifs with hc
  · exact ⟨⟨fun _ => hc, fun _ => rfl⟩, fun _ => rfl, fun h => absurd rfl h⟩
  · exact ⟨⟨fun h => absurd h (by decide), fun h => absurd h hc⟩,
      fun h => absurd h (by decide), fun _ => rfl⟩

/-- C7 witness: the accepted-build direction of `C7_build_accepted_iff`
applied to a concrete board. -/
theorem C7_build_accepted_iff_witness :
    (builds_adjudicate_order buildsWitnessBoard (.Build 1 .ARMY none) 1 3).1 = -1 :=
  (C7_build_accepted_iff buildsWitnessBoard 1 .ARMY none 1 3).1.mpr (by decide)

/-- C10 counterexample: the claim states that for a player whose center count
equals their unit count no unit of that player is deleted during the build
phase.  On this board player 0 has 1 center and 1 unit (at province 10), so
their budget is zero, yet player 1's `Disband 10` order deletes player 0's
unit: `_adjudicate_order` never checks that the disbanded province belongs to
the disbanding player, and `delete_unit` removes the occupant from the
occupant's player.  The final unit lists are `[[], [20]]` although the claim
requires player 0 to keep `[10]`. -/
theorem C10_counterexample_cross_player_disband :
    (runBuilds
      ⟨fun q => if q = 10 then ⟨false, none, none, false, [], some (0, .ARMY)⟩
                else if q = 20 then ⟨false, none, none, false, [], some (1, .ARMY)⟩
                else ⟨false, none, none, false, [], none⟩,
       [⟨0, 1, [10], [], 0⟩, ⟨1, 0, [20], [.Disband 10], 0⟩],
       "classic", false⟩).map (fun b => b.players.map BPlayer.units)
      = some [[], [20]] := by decide

/-- C10 (amended): a player whose center count equals their unit count is
skipped by the player loop, so none of that player's own Build or Disband
orders is processed and no unit is created for that player; Build orders are
applied only while the running budget is positive and Disband orders only
while it is negative; afterwards every player's `build_orders` and
`waived_orders` are cleared.  (A unit of such a player may still be deleted
by another player's Disband order naming its province.) -/
theorem C10_zero_budget_frame :
    (∀ (B : BBoard) (pid : ℕ) (pl : BPlayer),
        B.players.find? (fun p => p.pid = pid) = some pl →
        (pl.centers : Int) = (pl.units.length : Int) →
        builds_process_player B pid = B)
    ∧ (∀ (B : BBoard) (pr : ℕ) (ut : UnitType) (coast : Option ℕ) (available : Int) (pid : ℕ),
        available ≤ 0 →
        builds_adjudicate_order B (.Build pr ut coast) available pid = (0, B))
    ∧ (∀ (B : BBoard) (pr : ℕ) (available : Int) (pid : ℕ),
        0 ≤ available →
        builds_adjudicate_order B (.Disband pr) available pid = (0, B))
    ∧ (∀ (B B2 : BBoard), runBuilds B = some B2 →
        ∀ pl ∈ B2.players, pl.build_orders = [] ∧ pl.waived_orders = 0) := by
  refine ⟨?_, ?_, ?_, ?_⟩
  · intro B pid pl hfind hbal
    unfold builds_process_player
    rw [hfind]
    simp only [Option.getD_some]
    rw [if_pos (by omega)]
  · intro B pr ut coast available pid h
    simp only [builds_adjudicate_order]
    rw [if_neg (by omega)]
  · intro B pr available pid h
    simp only [builds_adjudicate_order]
    rw [if_neg (by omega)]
  · intro B B2 hrun pl hpl
    unfold runBuilds at hrun
    split_ifs at hrun
    simp only [Option.some.injEq] at hrun
    subst hrun
    simp only [List.mem_map] at hpl
    obtain ⟨q, hq, rfl⟩ := hpl
    exact ⟨rfl, rfl⟩

/-- C10 witness: `C10_zero_budget_frame` applied at a concrete board whose
only player has 1 center and 1 unit. -/
theorem C10_zero_budget_frame_witness :
    builds_process_player buildsWitnessBoard 0 = buildsWitnessBoard :=
  C10_zero_budget_frame.1 buildsWitnessBoard 0 ⟨0, 1, [10], [], 0⟩ (by decide) (by decide)

/-- Units with the same id in a list whose ids are free of duplicates are
the same record. -/
theorem rt_uid_unique {l : List RUnit} (h : (l.map RUnit.uid).Nodup)
    {x y : RUnit} (hx : x ∈ l) (hy : y ∈ l) (hxy : x.uid = y.uid) : x = y := by
  induction l with
  | nil => cases hx
  | cons z tl ih =>
    simp only [List.map_cons, List.nodup_cons] at h
    rcases List.mem_cons.mp hx with rfl | hx2
    · rcases List.mem_cons.mp hy with rfl | hy2
      · rfl
      · exact absurd (by rw [hxy]; exact List.mem_map_of_mem _ hy2) h.1
    · rcases List.mem_cons.mp hy with rfl | hy2
      · exact absurd (by rw [← hxy]; exact List.mem_map_of_mem _ hx2) h.1
      · exact ih h.2 hx2 hy2

/-- Finding a unit by id in a duplicate-free list returns that unit. -/
theorem rt_find_uid {l : List RUnit} (h : (l.map RUnit.uid).Nodup) {u : RUnit}
    (hu : u ∈ l) : l.find? (fun v => v.uid = u.uid) = some u := by
  have hsome : (l.find? (fun v => v.uid = u.uid)).isSome := by
    rw [List.find?_isSome]
    exact ⟨u, hu, by simp⟩
  rcases Option.isSome_iff_exists.mp hsome with ⟨w, hw⟩
  have hwmem := List.mem_of_find?_eq_some hw
  have hwuid : w.uid = u.uid := by simpa using List.find?_some hw
  rw [hw, rt_uid_unique h hwmem hu hwuid]

/-- A valid retreat destination comes from the unit's own `RetreatMove`
order and retreat options. -/
theorem rt_valid_dest_order {u : RUnit} {d : ℕ} {c : Option ℕ}
    (h : retreats_valid_dest u = some (d, c)) :
    u.order = some (ROrder.RetreatMove d c) ∧
      ∃ opts, u.retreat_options = some opts ∧ (d, c) ∈ opts := by
  unfold retreats_valid_dest at h
  rcases ho : u.order with _ | o
  · rw [ho] at h
    cases h
  · rw [ho] at h
    rcases o with ⟨d0, c0⟩ | _
    · dsimp only at h
      rcases hr : u.retreat_options with _ | opts
      · rw [hr] at h
        cases h
      · rw [hr] at h
        dsimp only at h
        split_ifs at h with hmem
        · simp only [Option.some.injEq, Prod.mk.injEq] at h
          obtain ⟨rfl, rfl⟩ := h
          exact ⟨rfl, opts, rfl, hmem⟩
    · dsimp only at h
      cases h

/-- Deletion list produced by the validation fold. -/
theorem rt_validate_fold_snd (B : RBoard) (us : List RUnit)
    (g0 : List (ℕ × List ℕ)) (d0 : List ℕ) :
    (us.foldl (retreats_validate_step B) (g0, d0)).2 = d0 ++ retreatDeletesIn B us := by
  induction us generalizing g0 d0 with
  | nil => simp [retreatDeletesIn]
  | cons u us ih =>
    simp only [List.foldl_cons]
    by_cases h1 : (B.prov u.province).dislodged_unit = some u.uid
    · rcases hvd : retreats_valid_dest u with _ | ⟨d, c⟩
      · have hstep : retreats_validate_step B (g0, d0) u = (g0, d0 ++ [u.uid]) := by
          simp [retreats_validate_step, h1, hvd]
        rw [hstep, ih]
        simp [retreatDeletesIn, List.filter_cons, h1, hvd]
      · have hstep : retreats_validate_step B (g0, d0) u = (addToGroup g0 d u.uid, d0) := by
          simp [retreats_validate_step, h1, hvd]
        rw [hstep, ih]
        simp [retreatDeletesIn, List.filter_cons, h1, hvd]
    · have hstep : retreats_validate_step B (g0, d0) u = (g0, d0) := by
        simp [retreats_validate_step, h1]
      rw [hstep, ih]
      simp [retreatDeletesIn, List.filter_cons, h1]

/-- Appending a retreater to its destination group, seen through lookup. -/
theorem rt_lookup_add_self (groups : List (ℕ × List ℕ)) (d uid : ℕ) :
    lookupGroup (addToGroup groups d uid) d =
      some ((lookupGroup groups d).getD [] ++ [uid]) := by
  induction groups with
  | nil => simp [addToGroup, lookupGroup]
  | cons g gs ih =>
    by_cases hg : g.1 = d
    · simp [addToGroup, lookupGroup, hg]
    · have e1 : addToGroup (g :: gs) d uid = g :: addToGroup gs d uid := by
        simp [addToGroup, hg]
      rw [e1]
      have e2 : lookupGroup (g :: addToGroup gs d uid) d = lookupGroup (addToGroup gs d uid) d := by
        simp only [lookupGroup]
        rw [List.find?_cons_of_neg _ (by simpa using hg)]
      have e3 : lookupGroup (g :: gs) d = lookupGroup gs d := by
        simp only [lookupGroup]
        rw [List.find?_cons_of_neg _ (by simpa using hg)]
      rw [e2, e3, ih]

/-- Appending a retreater to one group leaves other lookups unchanged. -/
theorem rt_lookup_add_other (groups : List (ℕ × List ℕ)) (d uid d2 : ℕ) (h : d2 ≠ d) :
    lookupGroup (addToGroup groups d uid) d2 = lookupGroup groups d2 := by
  induction groups with
  | nil => simp [addToGroup, lookupGroup, List.find?, Ne.symm h]
  | cons g gs ih =>
    by_cases hg : g.1 = d
    · have hg2 : ¬g.1 = d2 := fun hh => h (hh.symm.trans hg)
      have e1 : addToGroup (g :: gs) d uid = (g.1, g.2 ++ [uid]) :: gs := by
        simp [addToGroup, hg]
      rw [e1]
      simp only [lookupGroup]
      rw [List.find?_cons_of_neg _ (by simpa using hg2),
        List.find?_cons_of_neg _ (by simpa using hg2)]
    · have e1 : addToGroup (g :: gs) d uid = g :: addToGroup gs d uid := by
        simp [addToGroup, hg]
      rw [e1]
      by_cases hg2 : g.1 = d2
      · simp only [lookupGroup]
        rw [List.find?_cons_of_pos _ (by simpa using hg2),
          List.find?_cons_of_pos _ (by simpa using hg2)]
      · simp only [lookupGroup]
        rw [List.find?_cons_of_neg _ (by simpa using hg2),
          List.find?_cons_of_neg _ (by simpa using hg2)]
        exact ih

/-- Keys of the group map after appending a retreater. -/
theorem rt_keys_add (groups : List (ℕ × List ℕ)) (d uid : ℕ) :
    (addToGroup groups d uid).map Prod.fst =
      if d ∈ groups.map Prod.fst then groups.map Prod.fst
      else groups.map Prod.fst ++ [d] := by
  induction groups with
  | nil => simp [addToGroup]
  | cons g gs ih =>
    by_cases hg : g.1 = d
    · simp [addToGroup, hg]
    · by_cases hd : d ∈ gs.map Prod.fst
      · simp [addToGroup, hg, hd, ih, Ne.symm hg]
      · simp [addToGroup, hg, hd, ih, Ne.symm hg]

/-- Group contents produced by the validation fold: the previous group entry
extended by the valid retreaters of the processed units. -/
theorem rt_validate_fold_fst (B : RBoard) (us : List RUnit)
    (g0 : List (ℕ × List ℕ)) (d0 : List ℕ) (p : ℕ) :
    lookupGroup ((us.foldl (retreats_validate_step B) (g0, d0)).1) p =
      combineGroup (lookupGroup g0 p) (retreatersIn B us p) := by
  induction us generalizing g0 d0 with
  | nil =>
    rcases h : lookupGroup g0 p with _ | l <;> simp [retreatersIn, combineGroup, h]
  | cons u us ih =>
    simp only [List.foldl_cons]
    by_cases h1 : (B.prov u.province).dislodged_unit = some u.uid
    · rcases hvd : retreats_valid_dest u with _ | ⟨d, c⟩
      · have hstep : retreats_validate_step B (g0, d0) u = (g0, d0 ++ [u.uid]) := by
          simp [retreats_validate_step, h1, hvd]
        rw [hstep, ih]
        simp [retreatersIn, List.filter_cons, h1, hvd]
      · have hstep : retreats_validate_step B (g0, d0) u = (addToGroup g0 d u.uid, d0) := by
          simp [retreats_validate_step, h1, hvd]
        rw [hstep, ih]
        by_cases hdp : d = p
        · subst hdp
          rw [rt_lookup_add_self]
          have hfilter : retreatersIn B (u :: us) d = u.uid :: retreatersIn B us d := by
            simp [retreatersIn, List.filter_cons, h1, hvd]
          rw [hfilter]
          rcases hl : lookupGroup g0 d with _ | l
          · simp [combineGroup]
          · simp [combineGroup]
        · rw [rt_lookup_add_other _ _ _ _ (fun hh => hdp hh.symm)]
          have hfilter : retreatersIn B (u :: us) p = retreatersIn B us p := by
            simp [retreatersIn, List.filter_cons, h1, hvd, hdp]
          rw [hfilter]
    · have hstep : retreats_validate_step B (g0, d0) u = (g0, d0) := by
        simp [retreats_validate_step, h1]
      rw [hstep, ih]
      simp [retreatersIn, List.filter_cons, h1]

/-- The validation fold keeps the group keys free of duplicates. -/
theorem rt_validate_fold_keys (B : RBoard) (us : List RUnit)
    (g0 : List (ℕ × List ℕ)) (d0 : List ℕ) (h : (g0.map Prod.fst).Nodup) :
    (((us.foldl (retreats_validate_step B) (g0, d0)).1).map Prod.fst).Nodup := by
  induction us generalizing g0 d0 with
  | nil => exact h
  | cons u us ih =>
    simp only [List.foldl_cons]
    rcases hstep : retreats_validate_step B (g0, d0) u with ⟨g1, d1⟩
    have hg1 : (g1.map Prod.fst).Nodup := by
      unfold retreats_validate_step at hstep
      split_ifs at hstep with h1
      · cases hstep; exact h
      · rcases hvd : retreats_valid_dest u with _ | ⟨d, c⟩ <;> rw [hvd] at hstep
        · cases hstep; exact h
        · dsimp only at hstep
          cases hstep
          rw [rt_keys_add]
          split_ifs with hmem
          · exact h
          · simp only [List.nodup_append, List.nodup_cons, List.nodup_nil]
            refine ⟨h, ?_⟩
            refine ⟨⟨by simp, trivial⟩, ?_⟩
            intro x hx hxd
            simp only [List.mem_singleton] at hxd
            exact hmem (hxd ▸ hx)
    exact ih g1 d1 hg1

/-- In a group list with duplicate-free keys, every entry is what its key
looks up to. -/
theorem rt_find_entry {groups : List (ℕ × List ℕ)}
    (hnd : (groups.map Prod.fst).Nodup) {e : ℕ × List ℕ} (he : e ∈ groups) :
    groups.find? (fun g => g.1 = e.1) = some e := by
  induction groups with
  | nil => cases he
  | cons g gs ih =>
    simp only [List.map_cons, List.nodup_cons] at hnd
    rcases List.mem_cons.mp he with rfl | he2
    · exact List.find?_cons_of_pos _ (by simp)
    · by_cases hg : g.1 = e.1
      · exact absurd (hg ▸ List.mem_map_of_mem Prod.fst he2) hnd.1
      · rw [List.find?_cons_of_neg _ (by simpa using hg)]
        exact ih hnd.2 he2

/-- An element not matched by the predicate survives `eraseP`. -/
theorem rt_mem_eraseP {l : List RUnit} {v : RUnit} (hv : v ∈ l)
    {q : RUnit → Bool} (hq : q v = false) : v ∈ l.eraseP q := by
  induction l with
  | nil => cases hv
  | cons x tl ih =>
    rcases List.mem_cons.mp hv with rfl | h2
    · rw [List.eraseP_cons, hq]
      exact List.mem_cons_self _ _
    · rw [List.eraseP_cons]
      cases hqx : q x
      · exact List.mem_cons_of_mem _ (ih h2)
      · exact h2

/-- Erasing the unique unit with a given id removes that id. -/
theorem rt_eraseP_uid_not_mem {l : List RUnit} (h : (l.map RUnit.uid).Nodup) (a : ℕ) :
    a ∉ (l.eraseP (fun v => v.uid = a)).map RUnit.uid := by
  induction l with
  | nil => simp
  | cons x tl ih =>
    simp only [List.map_cons, List.nodup_cons] at h
    rw [List.eraseP_cons]
    by_cases hxa : x.uid = a
    · rw [show (decide (x.uid = a)) = true by simp [hxa]]
      simp only [cond_true]
      rw [← hxa]
      exact h.1
    · rw [show (decide (x.uid = a)) = false by simp [hxa]]
      simp only [cond_false, List.map_cons, List.mem_cons]
      rintro (h1 | hmem)
      · exact hxa h1.symm
      · exact ih h.2 hmem

/-- Units after a retreat move: only the moved unit's province and coast
change. -/
theorem rt_ar_units (b : RBoard) (w : RUnit) (dP : ℕ) (cc : Option ℕ) :
    (retreats_apply_retreat b w dP cc).units =
      b.units.map (fun v => if v.uid = w.uid then { v with province := dP, coast := cc } else v) := by
  unfold retreats_apply_retreat rSetProv rChangeOwner
  split_ifs <;> rfl

/-- A retreat move does not change the FALL flag. -/
theorem rt_ar_is_fall (b : RBoard) (w : RUnit) (dP : ℕ) (cc : Option ℕ) :
    (retreats_apply_retreat b w dP cc).is_fall = b.is_fall := by
  unfold retreats_apply_retreat rSetProv rChangeOwner
  split_ifs <;> rfl

/-- A retreat move does not change the player table. -/
theorem rt_ar_players (b : RBoard) (w : RUnit) (dP : ℕ) (cc : Option ℕ) :
    (retreats_apply_retreat b w dP cc).players = b.players := by
  unfold retreats_apply_retreat rSetProv rChangeOwner
  split_ifs <;> rfl

/-- A retreat move does not change any supply-center flag. -/
theorem rt_ar_hasSC (b : RBoard) (w : RUnit) (dP : ℕ) (cc : Option ℕ) (q : ℕ) :
    ((retreats_apply_retreat b w dP cc).prov q).has_supply_center
      = (b.prov q).has_supply_center := by
  unfold retreats_apply_retreat rSetProv rChangeOwner
  by_cases h1 : ¬(b.prov dP).has_supply_center = true ∨ b.is_fall = true
  · rw [if_pos h1]
    by_cases h2 : q = dP <;> by_cases h3 : q = w.province <;> (simp [rSetProv, h2, h3]) <;> split_ifs <;> simp_all
  · rw [if_neg h1]
    by_cases h2 : q = dP <;> by_cases h3 : q = w.province <;> (simp [rSetProv, h2, h3]) <;> split_ifs <;> simp_all

/-- A retreat move changes occupancy only at its destination. -/
theorem rt_ar_unit_other (b : RBoard) (w : RUnit) (dP : ℕ) (cc : Option ℕ) (q : ℕ)
    (hq : q ≠ dP) :
    ((retreats_apply_retreat b w dP cc).prov q).unit = (b.prov q).unit := by
  unfold retreats_apply_retreat rSetProv rChangeOwner
  by_cases h1 : ¬(b.prov dP).has_supply_center = true ∨ b.is_fall = true
  · rw [if_pos h1]
    by_cases h3 : q = w.province <;> (simp [rSetProv, hq, h3]) <;> split_ifs <;> simp_all
  · rw [if_neg h1]
    by_cases h3 : q = w.province <;> (simp [rSetProv, hq, h3]) <;> split_ifs <;> simp_all

/-- A retreat move changes ownership only at its destination. -/
theorem rt_ar_owner_other (b : RBoard) (w : RUnit) (dP : ℕ) (cc : Option ℕ) (q : ℕ)
    (hq : q ≠ dP) :
    ((retreats_apply_retreat b w dP cc).prov q).owner = (b.prov q).owner := by
  unfold retreats_apply_retreat rSetProv rChangeOwner
  by_cases h1 : ¬(b.prov dP).has_supply_center = true ∨ b.is_fall = true
  · rw [if_pos h1]
    by_cases h3 : q = w.province <;> (simp [rSetProv, hq, h3]) <;> split_ifs <;> simp_all
  · rw [if_neg h1]
    by_cases h3 : q = w.province <;> (simp [rSetProv, hq, h3]) <;> split_ifs <;> simp_all

/-- A retreat move occupies its destination with the moved unit. -/
theorem rt_ar_unit_dest (b : RBoard) (w : RUnit) (dP : ℕ) (cc : Option ℕ) :
    ((retreats_apply_retreat b w dP cc).prov dP).unit = some w.uid := by
  unfold retreats_apply_retreat rSetProv rChangeOwner
  by_cases h1 : ¬(b.prov dP).has_supply_center = true ∨ b.is_fall = true
  · rw [if_pos h1]
    by_cases h3 : dP = w.province <;> (simp [rSetProv, h3]) <;> split_ifs <;> simp_all
  · rw [if_neg h1]
    by_cases h3 : dP = w.province <;> (simp [rSetProv, h3]) <;> split_ifs <;> simp_all

/-- On a FALL turn or into a non-supply-center the retreat transfers
ownership of the destination to the retreating unit's player. -/
theorem rt_ar_owner_dest (b : RBoard) (w : RUnit) (dP : ℕ) (cc : Option ℕ)
    (h : (b.prov dP).has_supply_center = false ∨ b.is_fall = true) :
    ((retreats_apply_retreat b w dP cc).prov dP).owner = some w.player := by
  unfold retreats_apply_retreat rSetProv rChangeOwner
  have h1 : ¬(b.prov dP).has_supply_center = true ∨ b.is_fall = true := by
    rcases h with h | h
    · exact Or.inl (by simp [h])
    · exact Or.inr h
  rw [if_pos h1]
  simp [rSetProv]

/-- One retreat-group step preserves unit ids, players and orders, the
supply-center map, the FALL flag and the player table, and only appends to
the deletion list (all of one bouncing group's ids). -/
theorem rt_group_step_prop (st : RBoard × List ℕ) (g : ℕ × List ℕ) :
    ((retreats_group_step st g).1.units.map (fun v => (v.uid, v.player, v.order)) =
      st.1.units.map (fun v => (v.uid, v.player, v.order)))
    ∧ (∀ q, ((retreats_group_step st g).1.prov q).has_supply_center
          = (st.1.prov q).has_supply_center)
    ∧ (retreats_group_step st g).1.is_fall = st.1.is_fall
    ∧ (retreats_group_step st g).1.players = st.1.players
    ∧ (∃ l, (retreats_group_step st g).2 = st.2 ++ l)
    ∧ (g.2.length ≠ 1 → ∀ x ∈ g.2, x ∈ (retreats_group_step st g).2) := by
  by_cases hlen : g.2.length ≠ 1
  · have hstep : retreats_group_step st g = (st.1, st.2 ++ g.2) := by
      simp [retreats_group_step, hlen]
    rw [hstep]
    exact ⟨rfl, fun _ => rfl, rfl, rfl, ⟨g.2, rfl⟩, fun _ x hx => List.mem_append_right _ hx⟩
  · rcases hg : g.2 with _ | ⟨uid, tl⟩
    · rw [hg] at hlen; simp at hlen
    · rcases tl with _ | ⟨y, tl2⟩
      · rcases hf : st.1.units.find? (fun u => u.uid = uid) with _ | w
        · have hstep : retreats_group_step st g = (st.1, st.2) := by
            simp [retreats_group_step, hg, hf]
          rw [hstep]
          exact ⟨rfl, fun _ => rfl, rfl, rfl, ⟨[], by simp⟩, fun hc => absurd rfl hc⟩
        · rcases hw : w.order with _ | o
          · have hstep : retreats_group_step st g = (st.1, st.2 ++ [uid]) := by
              simp [retreats_group_step, hg, hf, hw]
            rw [hstep]
            exact ⟨rfl, fun _ => rfl, rfl, rfl, ⟨[uid], rfl⟩, fun hc => absurd rfl hc⟩
          · rcases o with ⟨dP, cc⟩ | _
            · have hstep : retreats_group_step st g =
                  (retreats_apply_retreat st.1 w dP cc, st.2) := by
                simp [retreats_group_step, hg, hf, hw]
              rw [hstep]
              refine ⟨?_, fun q => rt_ar_hasSC st.1 w dP cc q, rt_ar_is_fall st.1 w dP cc,
                rt_ar_players st.1 w dP cc, ⟨[], by simp⟩, fun hc => absurd rfl hc⟩
              rw [rt_ar_units, List.map_map]
              refine List.map_congr_left (fun v hv => ?_)
              by_cases hvw : v.uid = w.uid <;> simp [hvw]
            · have hstep : retreats_group_step st g = (st.1, st.2 ++ [uid]) := by
                simp [retreats_group_step, hg, hf, hw]
              rw [hstep]
              exact ⟨rfl, fun _ => rfl, rfl, rfl, ⟨[uid], rfl⟩, fun hc => absurd rfl hc⟩
      · rw [hg] at hlen
        simp at hlen

/-- The retreat-group fold preserves unit ids, players and orders, the
supply-center map, the FALL flag and the player table; the deletion list
only grows, picking up every bouncing group. -/
theorem rt_group_fold_prop (gs : List (ℕ × List ℕ)) (b : RBoard) (d : List ℕ) :
    ((gs.foldl retreats_group_step (b, d)).1.units.map (fun v => (v.uid, v.player, v.order)) =
      b.units.map (fun v => (v.uid, v.player, v.order)))
    ∧ (∀ q, ((gs.foldl retreats_group_step (b, d)).1.prov q).has_supply_center
          = (b.prov q).has_supply_center)
    ∧ (gs.foldl retreats_group_step (b, d)).1.is_fall = b.is_fall
    ∧ (gs.foldl retreats_group_step (b, d)).1.players = b.players
    ∧ (∀ x ∈ d, x ∈ (gs.foldl retreats_group_step (b, d)).2)
    ∧ (∀ g ∈ gs, g.2.length ≠ 1 → ∀ x ∈ g.2, x ∈ (gs.foldl retreats_group_step (b, d)).2) := by
  induction gs generalizing b d with
  | nil =>
    exact ⟨rfl, fun _ => rfl, rfl, rfl, fun x hx => hx, fun g hg => absurd hg (by simp)⟩
  | cons g gs ih =>
    simp only [List.foldl_cons]
    rcases rt_group_step_prop (b, d) g with ⟨hu, hsc, hfall, hpl, ⟨l, hl⟩, hbounce⟩
    have heq : retreats_group_step (b, d) g = ((retreats_group_step (b, d) g).1, d ++ l) := by
      rw [← hl]
    rw [heq]
    rcases ih (retreats_group_step (b, d) g).1 (d ++ l) with ⟨iu, isc, ifall, ipl, idel, ibounce⟩
    refine ⟨iu.trans hu, fun q => (isc q).trans (hsc q), ifall.trans hfall, ipl.trans hpl,
      ?_, ?_⟩
    · intro x hx
      exact idel x (List.mem_append_left _ hx)
    · intro g2 hg2 hlen x hx
      rcases List.mem_cons.mp hg2 with heq2 | hg3
      · subst heq2
        have hx2 := hbounce hlen x hx
        rw [hl] at hx2
        exact idel x hx2
      · exact ibounce g2 hg3 hlen x hx

/-- A unit that belongs to no processed retreat group is untouched by the
retreat-group fold, and never joins the deletion list. -/
theorem rt_moves_preserve_rec (gs : List (ℕ × List ℕ)) (b : RBoard) (d : List ℕ) (u : RUnit)
    (hmem : u ∈ b.units) (hgs : ∀ g ∈ gs, u.uid ∉ g.2) :
    u ∈ (gs.foldl retreats_group_step (b, d)).1.units
    ∧ (u.uid ∉ d → u.uid ∉ (gs.foldl retreats_group_step (b, d)).2) := by
  induction gs generalizing b d with
  | nil => exact ⟨hmem, fun h => h⟩
  | cons g gs ih =>
    simp only [List.foldl_cons]
    have hg0 : u.uid ∉ g.2 := hgs g (List.mem_cons_self _ _)
    have hgs2 : ∀ g2 ∈ gs, u.uid ∉ g2.2 := fun g2 hg2 => hgs g2 (List.mem_cons_of_mem _ hg2)
    by_cases hlen : g.2.length ≠ 1
    · have hstep : retreats_group_step (b, d) g = (b, d ++ g.2) := by
        simp [retreats_group_step, hlen]
      rw [hstep]
      rcases ih b (d ++ g.2) hmem hgs2 with ⟨h1, h2⟩
      refine ⟨h1, fun hd => h2 ?_⟩
      simp only [List.mem_append]
      rintro (h | h)
      · exact hd h
      · exact hg0 h
    · rcases hg : g.2 with _ | ⟨uid, tl⟩
      · rw [hg] at hlen; simp at hlen
      · rcases tl with _ | ⟨y, tl2⟩
        · have huid : u.uid ≠ uid := by
            rw [hg] at hg0; simpa using hg0
          rcases hf : b.units.find? (fun v => v.uid = uid) with _ | w
          · have hstep : retreats_group_step (b, d) g = (b, d) := by
              simp [retreats_group_step, hg, hf]
            rw [hstep]
            exact ih b d hmem hgs2
          · have hwuid : w.uid = uid := by simpa using List.find?_some hf
            rcases hw : w.order with _ | o
            · have hstep : retreats_group_step (b, d) g = (b, d ++ [uid]) := by
                simp [retreats_group_step, hg, hf, hw]
              rw [hstep]
              rcases ih b (d ++ [uid]) hmem hgs2 with ⟨h1, h2⟩
              refine ⟨h1, fun hd => h2 ?_⟩
              simp only [List.mem_append, List.mem_singleton]
              rintro (h | h)
              · exact hd h
              · exact huid h
            · rcases o with ⟨dP, cc⟩ | _
              · have hstep : retreats_group_step (b, d) g =
                    (retreats_apply_retreat b w dP cc, d) := by
                  simp [retreats_group_step, hg, hf, hw]
                rw [hstep]
                have hmem2 : u ∈ (retreats_apply_retreat b w dP cc).units := by
                  rw [rt_ar_units]
                  have hmap := List.mem_map_of_mem
                    (fun v => if v.uid = w.uid then { v with province := dP, coast := cc } else v)
                    hmem
                  simpa [hwuid, huid] using hmap
                exact ih _ d hmem2 hgs2
              · have hstep : retreats_group_step (b, d) g = (b, d ++ [uid]) := by
                  simp [retreats_group_step, hg, hf, hw]
                rw [hstep]
                rcases ih b (d ++ [uid]) hmem hgs2 with ⟨h1, h2⟩
                refine ⟨h1, fun hd => h2 ?_⟩
                simp only [List.mem_append, List.mem_singleton]
                rintro (h | h)
                · exact hd h
                · exact huid h
        · rw [hg] at hlen; simp at hlen

/-- After a retreating unit has been moved, no later group step disturbs
its record, the occupancy and ownership of its destination province, or
puts it on the deletion list, provided every remaining group names other
units and other destinations. -/
theorem rt_run_fold_facts (B : RBoard) (gs : List (ℕ × List ℕ)) (b : RBoard) (d : List ℕ)
    (huid p pl : ℕ) (c : Option ℕ)
    (Hrec : ∃ v ∈ b.units, v.uid = huid ∧ v.province = p ∧ v.coast = c ∧ v.player = pl)
    (Hunit : (b.prov p).unit = some huid)
    (Howner : (B.prov p).has_supply_center = false ∨ B.is_fall = true →
        (b.prov p).owner = some pl)
    (Hdel : huid ∉ d)
    (Horder : ∀ w ∈ b.units, ∃ w0 ∈ B.units, w0.uid = w.uid ∧ w0.order = w.order)
    (Hgs : ∀ g ∈ gs, ∀ uid2 ∈ g.2, uid2 ≠ huid ∧
       ∀ w ∈ B.units, w.uid = uid2 →
         ∀ dP cc, w.order = some (ROrder.RetreatMove dP cc) → dP ≠ p) :
    (∃ v ∈ (gs.foldl retreats_group_step (b, d)).1.units,
        v.uid = huid ∧ v.province = p ∧ v.coast = c ∧ v.player = pl)
    ∧ ((gs.foldl retreats_group_step (b, d)).1.prov p).unit = some huid
    ∧ ((B.prov p).has_supply_center = false ∨ B.is_fall = true →
        ((gs.foldl retreats_group_step (b, d)).1.prov p).owner = some pl)
    ∧ huid ∉ (gs.foldl retreats_group_step (b, d)).2 := by
  induction gs generalizing b d with
  | nil => exact ⟨Hrec, Hunit, Howner, Hdel⟩
  | cons g gs ih =>
    simp only [List.foldl_cons]
    have hgs2 := fun g2 hg2 => Hgs g2 (List.mem_cons_of_mem _ hg2)
    by_cases hlen : g.2.length ≠ 1
    · have hstep : retreats_group_step (b, d) g = (b, d ++ g.2) := by
        simp [retreats_group_step, hlen]
      rw [hstep]
      refine ih b (d ++ g.2) Hrec Hunit Howner ?_ Horder hgs2
      simp only [List.mem_append]
      rintro (h | h)
      · exact Hdel h
      · exact (Hgs g (List.mem_cons_self _ _) huid h).1 rfl
    · rcases hg : g.2 with _ | ⟨uid, tl⟩
      · rw [hg] at hlen; simp at hlen
      · rcases tl with _ | ⟨y, tl2⟩
        · have huidne : uid ≠ huid :=
            (Hgs g (List.mem_cons_self _ _) uid (by rw [hg]; simp)).1
          rcases hf : b.units.find? (fun v => v.uid = uid) with _ | w
          · have hstep : retreats_group_step (b, d) g = (b, d) := by
              simp [retreats_group_step, hg, hf]
            rw [hstep]
            exact ih b d Hrec Hunit Howner Hdel Horder hgs2
          · have hwuid : w.uid = uid := by simpa using List.find?_some hf
            have hwmem : w ∈ b.units := List.mem_of_find?_eq_some hf
            rcases hw : w.order with _ | o
            · have hstep : retreats_group_step (b, d) g = (b, d ++ [uid]) := by
                simp [retreats_group_step, hg, hf, hw]
              rw [hstep]
              refine ih b (d ++ [uid]) Hrec Hunit Howner ?_ Horder hgs2
              simp only [List.mem_append, List.mem_singleton]
              rintro (h | h)
              · exact Hdel h
              · exact huidne h.symm
            · rcases o with ⟨dP, cc⟩ | _
              · have hdP : dP ≠ p := by
                  rcases Horder w hwmem with ⟨w0, hw0mem, hw0uid, hw0ord⟩
                  exact (Hgs g (List.mem_cons_self _ _) uid (by rw [hg]; simp)).2 w0 hw0mem
                    (hw0uid.trans hwuid) dP cc (hw0ord.trans hw)
                have hstep : retreats_group_step (b, d) g =
                    (retreats_apply_retreat b w dP cc, d) := by
                  simp [retreats_group_step, hg, hf, hw]
                rw [hstep]
                have hb2rec : ∃ v ∈ (retreats_apply_retreat b w dP cc).units,
                    v.uid = huid ∧ v.province = p ∧ v.coast = c ∧ v.player = pl := by
                  rcases Hrec with ⟨v, hv, hvu, hvp, hvc, hvpl⟩
                  refine ⟨v, ?_, hvu, hvp, hvc, hvpl⟩
                  rw [rt_ar_units]
                  have hne : ¬v.uid = w.uid := by
                    rw [hvu, hwuid]; exact fun hh => huidne hh.symm
                  have hmap := List.mem_map_of_mem
                    (fun x => if x.uid = w.uid then { x with province := dP, coast := cc } else x)
                    hv
                  simpa [hne] using hmap
                have hb2unit : ((retreats_apply_retreat b w dP cc).prov p).unit = some huid := by
                  rw [rt_ar_unit_other _ _ _ _ _ (fun hh => hdP hh.symm)]
                  exact Hunit
                have hb2owner : (B.prov p).has_supply_center = false ∨ B.is_fall = true →
                    ((retreats_apply_retreat b w dP cc).prov p).owner = some pl := by
                  intro hcond
                  rw [rt_ar_owner_other _ _ _ _ _ (fun hh => hdP hh.symm)]
                  exact Howner hcond
                have hb2order : ∀ w2 ∈ (retreats_apply_retreat b w dP cc).units,
                    ∃ w0 ∈ B.units, w0.uid = w2.uid ∧ w0.order = w2.order := by
                  intro w2 hw2
                  rw [rt_ar_units] at hw2
                  rcases List.mem_map.mp hw2 with ⟨v, hv, hveq⟩
                  rcases Horder v hv with ⟨w0, hw0, hw0uid, hw0ord⟩
                  refine ⟨w0, hw0, ?_, ?_⟩ <;>
                    · rw [← hveq]
                      by_cases hc2 : v.uid = w.uid <;> simp [hc2, hw0uid, hw0ord]
                exact ih _ d hb2rec hb2unit hb2owner Hdel hb2order hgs2
              · have hstep : retreats_group_step (b, d) g = (b, d ++ [uid]) := by
                  simp [retreats_group_step, hg, hf, hw]
                rw [hstep]
                refine ih b (d ++ [uid]) Hrec Hunit Howner ?_ Horder hgs2
                simp only [List.mem_append, List.mem_singleton]
                rintro (h | h)
                · exact Hdel h
                · exact huidne h.symm
        · rw [hg] at hlen; simp at hlen

/-- Deleting units outside a given list of ids leaves a given record, and
the occupancy and ownership of any province, unchanged. -/
theorem rt_delete_fold_preserve (dels : List ℕ) (b : RBoard) (huid p : ℕ)
    (hd : huid ∉ dels) :
    (∀ v ∈ b.units, v.uid = huid → v ∈ (dels.foldl retreats_delete_unit b).units)
    ∧ ((dels.foldl retreats_delete_unit b).prov p).unit = (b.prov p).unit
    ∧ ((dels.foldl retreats_delete_unit b).prov p).owner = (b.prov p).owner := by
  induction dels generalizing b with
  | nil => exact ⟨fun v hv _ => hv, rfl, rfl⟩
  | cons uid2 tl ih =>
    simp only [List.foldl_cons]
    have hne : uid2 ≠ huid := fun hh => hd (hh ▸ List.mem_cons_self _ _)
    have htl : huid ∉ tl := fun hh => hd (List.mem_cons_of_mem _ hh)
    rcases hf : b.units.find? (fun v => v.uid = uid2) with _ | w
    · have hstep : retreats_delete_unit b uid2 = b := by
        simp [retreats_delete_unit, hf]
      rw [hstep]
      exact ih b htl
    · have hstep : retreats_delete_unit b uid2 =
          rSetProv { b with
            units := b.units.eraseP (fun v => v.uid = uid2),
            players := b.players.map
              (fun pl => if pl.1 = w.player then (pl.1, pl.2.erase uid2) else pl) }
            w.province (fun q => { q with dislodged_unit := none }) := by
        simp [retreats_delete_unit, hf]
      rw [hstep]
      rcases ih (rSetProv { b with
            units := b.units.eraseP (fun v => v.uid = uid2),
            players := b.players.map
              (fun pl => if pl.1 = w.player then (pl.1, pl.2.erase uid2) else pl) }
            w.province (fun q => { q with dislodged_unit := none })) htl with ⟨i1, i2, i3⟩
      refine ⟨?_, ?_, ?_⟩
      · intro v hv hvuid
        refine i1 v ?_ hvuid
        simp only [rSetProv]
        exact rt_mem_eraseP hv (by simp [hvuid, hne.symm])
      · rw [i2]
        simp only [rSetProv]
        by_cases hq : p = w.province <;> simp [hq]
      · rw [i3]
        simp only [rSetProv]
        by_cases hq : p = w.province <;> simp [hq]

/-- Once a unit id is gone from the board and from a player's unit list,
the deletion fold keeps it gone. -/
theorem rt_delete_fold_keeps_out (dels : List ℕ) (b : RBoard) (huid ppl : ℕ)
    (h1 : huid ∉ b.units.map RUnit.uid)
    (h2 : ∀ pl ∈ b.players, pl.1 = ppl → huid ∉ pl.2) :
    huid ∉ (dels.foldl retreats_delete_unit b).units.map RUnit.uid
    ∧ (∀ pl ∈ (dels.foldl retreats_delete_unit b).players, pl.1 = ppl →
        huid ∉ pl.2) := by
  induction dels generalizing b with
  | nil => exact ⟨h1, h2⟩
  | cons uid2 tl ih =>
    simp only [List.foldl_cons]
    rcases hf : b.units.find? (fun v => v.uid = uid2) with _ | w
    · have hstep : retreats_delete_unit b uid2 = b := by
        simp [retreats_delete_unit, hf]
      rw [hstep]
      exact ih b h1 h2
    · have hstep : retreats_delete_unit b uid2 =
          rSetProv { b with
            units := b.units.eraseP (fun v => v.uid = uid2),
            players := b.players.map
              (fun pl => if pl.1 = w.player then (pl.1, pl.2.erase uid2) else pl) }
            w.province (fun q => { q with dislodged_unit := none }) := by
        simp [retreats_delete_unit, hf]
      rw [hstep]
      refine ih _ ?_ ?_
      · simp only [rSetProv]
        intro hmem
        exact h1 (((List.eraseP_sublist _).map RUnit.uid).subset hmem)
      · simp only [rSetProv, List.mem_map]
        rintro pl ⟨pl0, hpl0, rfl⟩ hp
        by_cases hq : pl0.1 = w.player
        · simp only [hq, if_pos rfl] at hp ⊢
          have : huid ∉ pl0.2 := h2 pl0 hpl0 (by simpa [hq] using hp)
          exact fun hmem => this ((List.erase_sublist _ _).subset hmem)
        · simp only [if_neg hq] at hp ⊢
          exact h2 pl0 hpl0 hp

/-- A unit id on the deletion list is removed from the board and from its
player's unit list by the deletion fold. -/
theorem rt_delete_fold_removes (dels : List ℕ) (b : RBoard) (huid ppl : ℕ)
    (Hnodup : (b.units.map RUnit.uid).Nodup)
    (Hpl : ∀ pl ∈ b.players, pl.2.Nodup)
    (Hin : huid ∈ dels)
    (Hex : ∃ w ∈ b.units, w.uid = huid)
    (Hrec : ∀ w ∈ b.units, w.uid = huid → w.player = ppl) :
    huid ∉ (dels.foldl retreats_delete_unit b).units.map RUnit.uid
    ∧ (∀ pl ∈ (dels.foldl retreats_delete_unit b).players, pl.1 = ppl →
        huid ∉ pl.2) := by
  induction dels generalizing b with
  | nil => cases Hin
  | cons uid2 tl ih =>
    simp only [List.foldl_cons]
    by_cases hcase : uid2 = huid
    · rcases Hex with ⟨w, hwmem, hwuid⟩
      have hwp : w.player = ppl := Hrec w hwmem hwuid
      have hfind : b.units.find? (fun v => v.uid = uid2) = some w := by
        have h0 := rt_find_uid Hnodup hwmem
        rw [hwuid] at h0
        rw [hcase]
        exact h0
      have hstep : retreats_delete_unit b uid2 =
          rSetProv { b with
            units := b.units.eraseP (fun v => v.uid = uid2),
            players := b.players.map
              (fun pl => if pl.1 = w.player then (pl.1, pl.2.erase uid2) else pl) }
            w.province (fun q => { q with dislodged_unit := none }) := by
        simp [retreats_delete_unit, hfind]
      rw [hstep]
      apply rt_delete_fold_keeps_out
      · simp only [rSetProv]
        rw [← hcase]
        exact rt_eraseP_uid_not_mem Hnodup uid2
      · simp only [rSetProv, List.mem_map]
        rintro pl ⟨pl0, hpl0, rfl⟩ hp
        by_cases hq : pl0.1 = w.player
        · simp only [hq, if_pos rfl] at hp ⊢
          rw [← hcase]
          intro hmem
          exact (((Hpl pl0 hpl0).mem_erase_iff).mp hmem).1 rfl
        · simp only [if_neg hq] at hp ⊢
          exact absurd (hp.trans hwp.symm) hq
    · have Hin2 : huid ∈ tl := by
        rcases List.mem_cons.mp Hin with h | h
        · exact absurd h.symm hcase
        · exact h
      rcases hf : b.units.find? (fun v => v.uid = uid2) with _ | w
      · have hstep : retreats_delete_unit b uid2 = b := by
          simp [retreats_delete_unit, hf]
        rw [hstep]
        exact ih b Hnodup Hpl Hin2 Hex Hrec
      · have hstep : retreats_delete_unit b uid2 =
            rSetProv { b with
              units := b.units.eraseP (fun v => v.uid = uid2),
              players := b.players.map
                (fun pl => if pl.1 = w.player then (pl.1, pl.2.erase uid2) else pl) }
              w.province (fun q => { q with dislodged_unit := none }) := by
          simp [retreats_delete_unit, hf]
        rw [hstep]
        apply ih
        · simp only [rSetProv]
          exact List.Nodup.sublist ((List.eraseP_sublist _).map RUnit.uid) Hnodup
        · simp only [rSetProv, List.mem_map]
          rintro pl ⟨pl0, hpl0, rfl⟩
          by_cases hq : pl0.1 = w.player
          · simp only [hq, if_pos rfl]
            exact List.Nodup.sublist (List.erase_sublist _ _) (Hpl pl0 hpl0)
          · simp only [if_neg hq]
            exact Hpl pl0 hpl0
        · exact Hin2
        · rcases Hex with ⟨w2, hw2, hw2uid⟩
          refine ⟨w2, ?_, hw2uid⟩
          simp only [rSetProv]
          refine rt_mem_eraseP hw2 ?_
          rw [hw2uid]
          exact decide_eq_false (fun hh => hcase hh.symm)
        · intro w2 hw2 hw2uid
          apply Hrec w2 _ hw2uid
          simp only [rSetProv] at hw2
          exact (List.eraseP_sublist _).subset hw2

/-- Looking a destination up in the groups built by `_validate_orders`
produces exactly the valid retreaters to it. -/
theorem rt_lookup_groups (B : RBoard) (p : ℕ) :
    lookupGroup (retreats_validate_orders B).1 p =
      combineGroup none (retreatersTo B p) := by
  have h := rt_validate_fold_fst B B.units [] [] p
  have h0 : lookupGroup ([] : List (ℕ × List ℕ)) p = none := rfl
  rw [h0] at h
  exact h

/-- The deletion list built by `_validate_orders`. -/
theorem rt_dels0 (B : RBoard) :
    (retreats_validate_orders B).2 = retreatDeletesIn B B.units := by
  have h := rt_validate_fold_snd B B.units [] []
  simpa using h

/-- The destination keys of `_validate_orders` are free of duplicates. -/
theorem rt_groups_keys (B : RBoard) :
    (((retreats_validate_orders B).1).map Prod.fst).Nodup :=
  rt_validate_fold_keys B B.units [] [] (by simp)

/-- Every entry of the groups of `_validate_orders` holds exactly the valid
retreaters to its key. -/
theorem rt_group_content {B : RBoard} {e : ℕ × List ℕ}
    (he : e ∈ (retreats_validate_orders B).1) : e.2 = retreatersTo B e.1 := by
  have hf := rt_find_entry (rt_groups_keys B) he
  have hl : lookupGroup (retreats_validate_orders B).1 e.1 = some e.2 := by
    simp [lookupGroup, hf]
  rw [rt_lookup_groups] at hl
  rcases hr : retreatersTo B e.1 with _ | ⟨x, xs⟩
  · rw [hr] at hl
    cases hl
  · rw [hr] at hl
    simp only [combineGroup] at hl
    injection hl with h2
    exact h2.symm

/-- Membership in `retreatersTo` unpacked. -/
theorem rt_mem_retreatersTo {B : RBoard} {p uid2 : ℕ}
    (h : uid2 ∈ retreatersTo B p) :
    ∃ w ∈ B.units, w.uid = uid2 ∧
      (B.prov w.province).dislodged_unit = some w.uid ∧
      (retreats_valid_dest w).map Prod.fst = some p := by
  rcases List.mem_map.mp h with ⟨w, hw, hwuid⟩
  rcases List.mem_filter.mp hw with ⟨hwmem, hcond⟩
  rcases of_decide_eq_true hcond with ⟨h1, h2⟩
  exact ⟨w, hwmem, hwuid, h1, h2⟩

/-- A unit with a valid retreat destination is not on the deletion list of
`_validate_orders`. -/
theorem rt_valid_not_in_dels {B : RBoard} {u : RUnit} {d : ℕ} {c : Option ℕ}
    (hnodup : (B.units.map RUnit.uid).Nodup) (hu : u ∈ B.units)
    (hvd : retreats_valid_dest u = some (d, c)) :
    u.uid ∉ retreatDeletesIn B B.units := by
  intro hmem
  rcases List.mem_map.mp hmem with ⟨w, hw, hwuid⟩
  rcases List.mem_filter.mp hw with ⟨hwmem, hcond⟩
  rcases of_decide_eq_true hcond with ⟨_, h2⟩
  have : w = u := rt_uid_unique hnodup hwmem hu hwuid
  rw [this, hvd] at h2
  cases h2

/-- A group entry with key `p` and content `l` exists whenever the lookup
says so. -/
theorem rt_lookup_to_entry {groups : List (ℕ × List ℕ)} {p : ℕ} {l : List ℕ}
    (hl : lookupGroup groups p = some l) : (p, l) ∈ groups := by
  unfold lookupGroup at hl
  rcases hf : groups.find? (fun g => g.1 = p) with _ | e
  · rw [hf] at hl; cases hl
  · rw [hf] at hl
    simp only [Option.map_some'] at hl
    injection hl with h2
    have hp : e.1 = p := by simpa using List.find?_some hf
    have hmem := List.mem_of_find?_eq_some hf
    have : e = (p, l) := Prod.ext hp h2
    rw [← this]
    exact hmem

/-- `runRetreats` through its stages. -/
theorem rt_run_eq (B : RBoard) :
    runRetreats B =
      if B.is_fall = true ∧ B.has_vassals = true then none
      else some { retreatsStage2 B with
        units := (retreatsStage2 B).units.map
          (fun u => { u with order := none, retreat_options := none }) } := rfl

/-- Equal (id, player, order) projections give equal id projections. -/
theorem rt_triple_to_uid {l1 l2 : List RUnit}
    (h : l1.map (fun v => (v.uid, v.player, v.order)) =
      l2.map (fun v => (v.uid, v.player, v.order))) :
    l1.map RUnit.uid = l2.map RUnit.uid := by
  have h2 := congrArg (List.map (fun t : ℕ × ℕ × Option ROrder => t.1)) h
  simpa [List.map_map, Function.comp] using h2

/-- Equal (id, player, order) projections transport membership up to those
three fields. -/
theorem rt_triple_mem {l1 l2 : List RUnit}
    (h : l1.map (fun v => (v.uid, v.player, v.order)) =
      l2.map (fun v => (v.uid, v.player, v.order)))
    {u : RUnit} (hu : u ∈ l1) :
    ∃ w ∈ l2, w.uid = u.uid ∧ w.player = u.player ∧ w.order = u.order := by
  have hmem : (u.uid, u.player, u.order) ∈
      l2.map (fun v => (v.uid, v.player, v.order)) := by
    rw [← h]
    exact List.mem_map_of_mem _ hu
  rcases List.mem_map.mp hmem with ⟨w, hw, heq⟩
  simp only [Prod.mk.injEq] at heq
  exact ⟨w, hw, heq.1, heq.2.1, heq.2.2⟩

/-- C6: In retreat adjudication, every dislodged unit whose order is not a
`RetreatMove` into its retreat options is deleted from the board and from
its player; every destination targeted by two or more valid retreaters sees
all of them deleted; a destination targeted by exactly one valid retreater
receives that unit, with ownership transferred when the province has no
supply center or the turn is FALL. -/
theorem C6_retreats (B B2 : RBoard) (hrun : runRetreats B = some B2)
    (hnodup : (B.units.map RUnit.uid).Nodup)
    (hplists : ∀ pl ∈ B.players, pl.2.Nodup) :
    (∀ u ∈ B.units, (B.prov u.province).dislodged_unit = some u.uid →
       retreats_valid_dest u = none →
       u.uid ∉ B2.units.map RUnit.uid ∧
         ∀ pl ∈ B2.players, pl.1 = u.player → u.uid ∉ pl.2)
    ∧ (∀ p : ℕ, 2 ≤ (retreatersTo B p).length →
       ∀ u ∈ B.units, u.uid ∈ retreatersTo B p →
         u.uid ∉ B2.units.map RUnit.uid ∧
           ∀ pl ∈ B2.players, pl.1 = u.player → u.uid ∉ pl.2)
    ∧ (∀ p : ℕ, ∀ u ∈ B.units, ∀ c : Option ℕ,
       retreatersTo B p = [u.uid] →
       retreats_valid_dest u = some (p, c) →
       (∃ v ∈ B2.units, v.uid = u.uid ∧ v.province = p ∧ v.coast = c ∧
          v.player = u.player ∧ v.order = none ∧ v.retreat_options = none)
       ∧ (B2.prov p).unit = some u.uid
       ∧ ((B.prov p).has_supply_center = false ∨ B.is_fall = true →
           (B2.prov p).owner = some u.player)) := by
  have hvas : ¬(B.is_fall = true ∧ B.has_vassals = true) := by
    intro hc
    rw [rt_run_eq, if_pos hc] at hrun
    cases hrun
  rw [rt_run_eq, if_neg hvas, Option.some.injEq] at hrun
  subst hrun
  rcases rt_group_fold_prop (retreats_validate_orders B).1 B (retreats_validate_orders B).2 with
    ⟨htriple, hsc, hfall, hplayers, hdmono, hboun⟩
  have hst_uid : (retreatsStage1 B).1.units.map RUnit.uid = B.units.map RUnit.uid :=
    rt_triple_to_uid htriple
  have hst_nodup : ((retreatsStage1 B).1.units.map RUnit.uid).Nodup := by
    rw [hst_uid]
    exact hnodup
  have hst_players : (retreatsStage1 B).1.players = B.players := hplayers
  have hdeleted : ∀ u ∈ B.units, u.uid ∈ (retreatsStage1 B).2 →
      (u.uid ∉ (retreatsStage2 B).units.map RUnit.uid ∧
        ∀ pl ∈ (retreatsStage2 B).players, pl.1 = u.player → u.uid ∉ pl.2) := by
    intro u hu hin
    have hex : ∃ w ∈ (retreatsStage1 B).1.units, w.uid = u.uid := by
      rcases rt_triple_mem htriple.symm hu with ⟨w, hw, h1, _, _⟩
      exact ⟨w, hw, h1⟩
    have hrec : ∀ w ∈ (retreatsStage1 B).1.units, w.uid = u.uid → w.player = u.player := by
      intro w hw hwuid
      rcases rt_triple_mem htriple hw with ⟨w0, hw0, h1, h2, _⟩
      have hwu : w0 = u := rt_uid_unique hnodup hw0 hu (h1.trans hwuid)
      rw [← h2, hwu]
    have hpl1 : ∀ pl ∈ (retreatsStage1 B).1.players, pl.2.Nodup := by
      rw [hst_players]
      exact hplists
    exact rt_delete_fold_removes (retreatsStage1 B).2 (retreatsStage1 B).1 u.uid u.player
      hst_nodup hpl1 hin hex hrec
  have hliftdel : ∀ x : ℕ, x ∉ (retreatsStage2 B).units.map RUnit.uid →
      x ∉ ((retreatsStage2 B).units.map
        (fun u => ({ u with order := none, retreat_options := none } : RUnit))).map RUnit.uid := by
    intro x hx hmem
    apply hx
    rcases List.mem_map.mp hmem with ⟨v, hv, hvuid⟩
    rcases List.mem_map.mp hv with ⟨w, hw, hweq⟩
    rw [← hvuid, ← hweq]
    show w.uid ∈ (retreatsStage2 B).units.map RUnit.uid
    exact List.mem_map_of_mem _ hw
  refine ⟨?_, ?_, ?_⟩
  · intro u hu h1 h2
    have hin0 : u.uid ∈ (retreats_validate_orders B).2 := by
      rw [rt_dels0]
      exact List.mem_map_of_mem _ (List.mem_filter.mpr ⟨hu, decide_eq_true ⟨h1, h2⟩⟩)
    have hin : u.uid ∈ (retreatsStage1 B).2 := hdmono _ hin0
    rcases hdeleted u hu hin with ⟨hd1, hd2⟩
    exact ⟨hliftdel u.uid hd1, hd2⟩
  · intro p hlen u hu huid
    rcases hr : retreatersTo B p with _ | ⟨x, xs⟩
    · rw [hr] at hlen
      simp at hlen
    · rw [hr] at huid
      have hlk : lookupGroup (retreats_validate_orders B).1 p = some (x :: xs) := by
        rw [rt_lookup_groups, hr]
        rfl
      have hentry : (p, x :: xs) ∈ (retreats_validate_orders B).1 := rt_lookup_to_entry hlk
      have hlennz : (x :: xs).length ≠ 1 := by
        rw [hr] at hlen
        intro hc
        omega
      have hin : u.uid ∈ (retreatsStage1 B).2 := hboun (p, x :: xs) hentry hlennz u.uid huid
      rcases hdeleted u hu hin with ⟨hd1, hd2⟩
      exact ⟨hliftdel u.uid hd1, hd2⟩
  · intro p u hu c hsingle hvd
    have hlk : lookupGroup (retreats_validate_orders B).1 p = some [u.uid] := by
      rw [rt_lookup_groups, hsingle]
      rfl
    have hentry : (p, [u.uid]) ∈ (retreats_validate_orders B).1 := rt_lookup_to_entry hlk
    rcases List.append_of_mem hentry with ⟨l1, l2, hsplit⟩
    have hkeys := rt_groups_keys B
    rw [hsplit] at hkeys
    simp only [List.map_append, List.map_cons] at hkeys
    have hkey1 : ∀ g ∈ l1, g.1 ≠ p := by
      intro g hg hc
      have hp1 : p ∈ l1.map Prod.fst := hc ▸ List.mem_map_of_mem Prod.fst hg
      rcases List.nodup_append.mp hkeys with ⟨_, _, hdisj⟩
      exact hdisj hp1 (List.mem_cons_self _ _)
    have hkey2 : ∀ g ∈ l2, g.1 ≠ p := by
      intro g hg hc
      rcases List.nodup_append.mp hkeys with ⟨_, hnd2, _⟩
      rcases List.nodup_cons.mp hnd2 with ⟨hpnot, _⟩
      exact hpnot (hc ▸ List.mem_map_of_mem Prod.fst hg)
    have hHgs : ∀ g ∈ l1 ++ l2, ∀ uid2 ∈ g.2, uid2 ≠ u.uid ∧
        ∀ w ∈ B.units, w.uid = uid2 →
          ∀ dP cc, w.order = some (ROrder.RetreatMove dP cc) → dP ≠ p := by
      intro g hg uid2 hu2
      have hgmem : g ∈ (retreats_validate_orders B).1 := by
        rw [hsplit]
        rcases List.mem_append.mp hg with h | h
        · exact List.mem_append_left _ h
        · exact List.mem_append_right _ (List.mem_cons_of_mem _ h)
      have hgkey : g.1 ≠ p := by
        rcases List.mem_append.mp hg with h | h
        · exact hkey1 g h
        · exact hkey2 g h
      rw [rt_group_content hgmem] at hu2
      rcases rt_mem_retreatersTo hu2 with ⟨w, hwmem, hwuid, hwdis, hwdest⟩
      constructor
      · intro hc
        have hwu : w = u := rt_uid_unique hnodup hwmem hu (hwuid.trans hc)
        rw [hwu, hvd] at hwdest
        simp only [Option.map_some'] at hwdest
        injection hwdest with hpg
        exact hgkey hpg.symm
      · intro w2 hw2 hw2uid dP cc hw2ord hdp
        have hww : w2 = w := rt_uid_unique hnodup hw2 hwmem (hw2uid.trans hwuid.symm)
        rcases Option.map_eq_some'.mp hwdest with ⟨pr, hpr, hprfst⟩
        rcases pr with ⟨d2, c2⟩
        rcases rt_valid_dest_order hpr with ⟨hord, _⟩
        have heq2 : some (ROrder.RetreatMove d2 c2) = some (ROrder.RetreatMove dP cc) := by
          rw [← hord, ← hw2ord, hww]
        injection heq2 with heq3
        injection heq3 with hd2dP hc2cc
        apply hgkey
        rw [← hprfst, hd2dP, hdp]
    have hl1gs : ∀ g ∈ l1, u.uid ∉ g.2 := by
      intro g hg hc
      exact (hHgs g (List.mem_append_left _ hg) u.uid hc).1 rfl
    have hvalid_not_del : u.uid ∉ (retreats_validate_orders B).2 := by
      rw [rt_dels0]
      exact rt_valid_not_in_dels hnodup hu hvd
    rcases rt_moves_preserve_rec l1 B (retreats_validate_orders B).2 u hu hl1gs with ⟨hmem1, hnd1⟩
    have hnotd1 : u.uid ∉ (l1.foldl retreats_group_step (B, (retreats_validate_orders B).2)).2 :=
      hnd1 hvalid_not_del
    rcases rt_group_fold_prop l1 B (retreats_validate_orders B).2 with
      ⟨htr1, hsc1, hfall1, hplr1, _, _⟩
    have hnodup1 : ((l1.foldl retreats_group_step
        (B, (retreats_validate_orders B).2)).1.units.map RUnit.uid).Nodup := by
      rw [rt_triple_to_uid htr1]
      exact hnodup
    have hfind : (l1.foldl retreats_group_step
        (B, (retreats_validate_orders B).2)).1.units.find? (fun v => v.uid = u.uid) = some u :=
      rt_find_uid hnodup1 hmem1
    rcases rt_valid_dest_order hvd with ⟨hord, _⟩
    have hstep : retreats_group_step
        (l1.foldl retreats_group_step (B, (retreats_validate_orders B).2)) (p, [u.uid]) =
        (retreats_apply_retreat
          (l1.foldl retreats_group_step (B, (retreats_validate_orders B).2)).1 u p c,
         (l1.foldl retreats_group_step (B, (retreats_validate_orders B).2)).2) := by
      simp [retreats_group_step, hfind, hord]
    have hrec2 : ∃ v ∈ (retreats_apply_retreat
        (l1.foldl retreats_group_step (B, (retreats_validate_orders B).2)).1 u p c).units,
        v.uid = u.uid ∧ v.province = p ∧ v.coast = c ∧ v.player = u.player := by
      refine ⟨{ u with province := p, coast := c }, ?_, rfl, rfl, rfl, rfl⟩
      rw [rt_ar_units]
      have hmap := List.mem_map_of_mem
        (fun x => if x.uid = u.uid then { x with province := p, coast := c } else x) hmem1
      simpa using hmap
    have hunit2 : ((retreats_apply_retreat
        (l1.foldl retreats_group_step (B, (retreats_validate_orders B).2)).1 u p c).prov p).unit
        = some u.uid :=
      rt_ar_unit_dest _ u p c
    have howner2 : (B.prov p).has_supply_center = false ∨ B.is_fall = true →
        ((retreats_apply_retreat
          (l1.foldl retreats_group_step (B, (retreats_validate_orders B).2)).1 u p c).prov p).owner
          = some u.player := by
      intro hcond
      apply rt_ar_owner_dest
      rcases hcond with h | h
      · left
        rw [hsc1 p]
        exact h
      · right
        rw [hfall1]
        exact h
    have horder2 : ∀ w2 ∈ (retreats_apply_retreat
        (l1.foldl retreats_group_step (B, (retreats_validate_orders B).2)).1 u p c).units,
        ∃ w0 ∈ B.units, w0.uid = w2.uid ∧ w0.order = w2.order := by
      intro w2 hw2
      rw [rt_ar_units] at hw2
      rcases List.mem_map.mp hw2 with ⟨v, hv, hveq⟩
      rcases rt_triple_mem htr1 hv with ⟨w0, hw0, h1, _, h3⟩
      refine ⟨w0, hw0, ?_, ?_⟩ <;>
        · rw [← hveq]
          by_cases hc2 : v.uid = u.uid <;> simp [hc2, h1, h3]
    have hl2gs : ∀ g ∈ l2, ∀ uid2 ∈ g.2, uid2 ≠ u.uid ∧
        ∀ w ∈ B.units, w.uid = uid2 →
          ∀ dP cc, w.order = some (ROrder.RetreatMove dP cc) → dP ≠ p :=
      fun g hg => hHgs g (List.mem_append_right _ hg)
    rcases rt_run_fold_facts B l2
      (retreats_apply_retreat
        (l1.foldl retreats_group_step (B, (retreats_validate_orders B).2)).1 u p c)
      (l1.foldl retreats_group_step (B, (retreats_validate_orders B).2)).2
      u.uid p u.player c hrec2 hunit2 howner2 hnotd1 horder2 hl2gs with ⟨hf1, hf2, hf3, hf4⟩
    have hstage : retreatsStage1 B = l2.foldl retreats_group_step
        (retreats_apply_retreat
          (l1.foldl retreats_group_step (B, (retreats_validate_orders B).2)).1 u p c,
         (l1.foldl retreats_group_step (B, (retreats_validate_orders B).2)).2) := by
      unfold retreatsStage1
      rw [hsplit, List.foldl_append, List.foldl_cons, hstep]
    have hnotdel : u.uid ∉ (retreatsStage1 B).2 := by
      rw [hstage]
      exact hf4
    rcases rt_delete_fold_preserve (retreatsStage1 B).2 (retreatsStage1 B).1 u.uid p hnotdel with
      ⟨hp1, hp2, hp3⟩
    have hs1 : ∃ v ∈ (retreatsStage1 B).1.units, v.uid = u.uid ∧ v.province = p ∧
        v.coast = c ∧ v.player = u.player := by
      rw [hstage]
      exact hf1
    have hs2 : ((retreatsStage1 B).1.prov p).unit = some u.uid := by
      rw [hstage]
      exact hf2
    have hs3 : (B.prov p).has_supply_center = false ∨ B.is_fall = true →
        ((retreatsStage1 B).1.prov p).owner = some u.player := by
      rw [hstage]
      exact hf3
    rcases hs1 with ⟨v, hv, hv1, hv2, hv3, hv4⟩
    refine ⟨?_, ?_, ?_⟩
    · have hv5 : v ∈ (retreatsStage2 B).units := hp1 v hv hv1
      exact ⟨{ v with order := none, retreat_options := none },
        List.mem_map_of_mem _ hv5, hv1, hv2, hv3, hv4, rfl, rfl⟩
    · show ((retreatsStage2 B).prov p).unit = some u.uid
      exact hp2.trans hs2
    · intro hcond
      show ((retreatsStage2 B).prov p).owner = some u.player
      exact hp3.trans (hs3 hcond)

/-- C6 witness: `C6_retreats` applied to a concrete board whose only
dislodged unit submitted no retreat order, so it is deleted. -/
theorem C6_retreats_witness :
    7 ∉ ((runRetreats retreatsWitnessBoard).getD retreatsWitnessBoard).units.map RUnit.uid := by
  have hrun : runRetreats retreatsWitnessBoard =
      some ((runRetreats retreatsWitnessBoard).getD retreatsWitnessBoard) := rfl
  exact ((C6_retreats retreatsWitnessBoard _ hrun (by decide) (by decide)).1
    ⟨7, 0, 1, none, none, none⟩ (by decide) (by decide) (by decide)).1

/-- The fuelled convoy search is monotone in fuel. -/
theorem convoy_loop_mono {n : ℕ} (B : VBoard n) (s e : Fin n) (c : Bool) :
    ∀ (fuel : ℕ) (visited : Finset (Fin n)) (queue trace : List (Fin n))
      (r : Bool × List (Fin n)),
      convoy_is_possible_loop B s e c fuel visited queue trace = some r →
      convoy_is_possible_loop B s e c (fuel + 1) visited queue trace = some r := by
  intro fuel
  induction fuel with
  | zero => intro visited queue trace r h; cases h
  | succ f ih =>
    intro visited queue trace r h
    rcases queue with _ | ⟨current, rest⟩
    · simp only [convoy_is_possible_loop] at h ⊢
      exact h
    · simp only [convoy_is_possible_loop] at h ⊢
      by_cases hcv : current ∈ visited
      · rw [if_pos hcv] at h ⊢
        exact ih _ _ _ _ h
      · rw [if_neg hcv] at h ⊢
        by_cases hend : e ∈ (B.prov current).adjacent
        · rw [if_pos hend] at h ⊢
          exact h
        · rw [if_neg hend] at h ⊢
          exact ih _ _ _ _ h

/-- Fuel monotonicity, for any larger fuel. -/
theorem convoy_loop_mono_le {n : ℕ} (B : VBoard n) (s e : Fin n) (c : Bool)
    {f1 f2 : ℕ} (hf : f1 ≤ f2) (visited : Finset (Fin n)) (queue trace : List (Fin n))
    (r : Bool × List (Fin n))
    (h : convoy_is_possible_loop B s e c f1 visited queue trace = some r) :
    convoy_is_possible_loop B s e c f2 visited queue trace = some r := by
  induction hf with
  | refl => exact h
  | step h2 ih => exact convoy_loop_mono B s e c _ _ _ _ _ ih

/-- A completed fuelled search decides the path-existence predicate. -/
theorem convoy_result_iff {n : ℕ} (B : VBoard n) (fuel : ℕ) (s e : Fin n) (c : Bool)
    (b : Bool) (tr : List (Fin n))
    (h : convoy_is_possible B fuel s e c = some (b, tr)) :
    (ConvoyPathExists B s e c ↔ b = true) := by
  constructor
  · rintro ⟨f2, r2, h2, hr2⟩
    have e1 := convoy_loop_mono_le B s e c (le_max_left fuel f2) _ _ _ _ h
    have e2 := convoy_loop_mono_le B s e c (le_max_right fuel f2) _ _ _ _ h2
    rw [e2] at e1
    injection e1 with e3
    rw [e3] at hr2
    exact hr2
  · intro hb
    exact ⟨fuel, (b, tr), h, hb⟩

/-- `convoy_is_possible` terminates: a lexicographic argument on the number
of unvisited provinces and the visited entries in the queue produces
sufficient fuel from any state. -/
theorem convoy_loop_term {n : ℕ} (B : VBoard n) (s e : Fin n) (c : Bool) :
    ∀ (k1 k2 : ℕ) (visited : Finset (Fin n)) (queue trace : List (Fin n)),
      n - visited.card ≤ k1 → (queue.filter (fun x => x ∈ visited)).length ≤ k2 →
      ∃ fuel r, convoy_is_possible_loop B s e c fuel visited queue trace = some r := by
  intro k1
  induction k1 with
  | zero =>
    intro k2
    induction k2 with
    | zero =>
      intro visited queue trace h1 h2
      rcases queue with _ | ⟨current, rest⟩
      · exact ⟨1, (false, trace), rfl⟩
      · exfalso
        by_cases hcv : current ∈ visited
        · rw [List.filter_cons_of_pos (by simpa using hcv)] at h2
          simp at h2
        · have h3 : (insert current visited).card = visited.card + 1 :=
            Finset.card_insert_of_not_mem hcv
          have h4 := Finset.card_le_univ (insert current visited)
          rw [Fintype.card_fin] at h4
          omega
    | succ k2 ih2 =>
      intro visited queue trace h1 h2
      rcases queue with _ | ⟨current, rest⟩
      · exact ⟨1, (false, trace), rfl⟩
      · by_cases hcv : current ∈ visited
        · rw [List.filter_cons_of_pos (by simpa using hcv)] at h2
          simp only [List.length_cons] at h2
          rcases ih2 visited rest trace h1 (by omega) with ⟨f, r, hf⟩
          refine ⟨f + 1, r, ?_⟩
          simp only [convoy_is_possible_loop]
          rw [if_pos hcv]
          exact hf
        · exfalso
          have h3 : (insert current visited).card = visited.card + 1 :=
            Finset.card_insert_of_not_mem hcv
          have h4 := Finset.card_le_univ (insert current visited)
          rw [Fintype.card_fin] at h4
          omega
  | succ k1 ih1 =>
    intro k2
    induction k2 with
    | zero =>
      intro visited queue trace h1 h2
      rcases queue with _ | ⟨current, rest⟩
      · exact ⟨1, (false, trace), rfl⟩
      · by_cases hcv : current ∈ visited
        · rw [List.filter_cons_of_pos (by simpa using hcv)] at h2
          simp at h2
        · by_cases hend : e ∈ (B.prov current).adjacent
          · refine ⟨1, (true, trace ++ [current]), ?_⟩
            simp only [convoy_is_possible_loop]
            rw [if_neg hcv, if_pos hend]
          · have h3 : (insert current visited).card = visited.card + 1 :=
              Finset.card_insert_of_not_mem hcv
            rcases ih1
              (((rest ++ (B.prov current).adjacent.filter (fun a =>
                  adjacent_could_convoy B a && (!c || adjacent_did_convoy B a s e))).filter
                (fun x => x ∈ insert current visited)).length)
              (insert current visited)
              (rest ++ (B.prov current).adjacent.filter (fun a =>
                adjacent_could_convoy B a && (!c || adjacent_did_convoy B a s e)))
              (trace ++ [current]) (by omega) le_rfl with ⟨f, r, hf⟩
            refine ⟨f + 1, r, ?_⟩
            simp only [convoy_is_possible_loop]
            rw [if_neg hcv, if_neg hend]
            exact hf
    | succ k2 ih2 =>
      intro visited queue trace h1 h2
      rcases queue with _ | ⟨current, rest⟩
      · exact ⟨1, (false, trace), rfl⟩
      · by_cases hcv : current ∈ visited
        · rw [List.filter_cons_of_pos (by simpa using hcv)] at h2
          simp only [List.length_cons] at h2
          rcases ih2 visited rest trace h1 (by omega) with ⟨f, r, hf⟩
          refine ⟨f + 1, r, ?_⟩
          simp only [convoy_is_possible_loop]
          rw [if_pos hcv]
          exact hf
        · by_cases hend : e ∈ (B.prov current).adjacent
          · refine ⟨1, (true, trace ++ [current]), ?_⟩
            simp only [convoy_is_possible_loop]
            rw [if_neg hcv, if_pos hend]
          · have h3 : (insert current visited).card = visited.card + 1 :=
              Finset.card_insert_of_not_mem hcv
            rcases ih1
              (((rest ++ (B.prov current).adjacent.filter (fun a =>
                  adjacent_could_convoy B a && (!c || adjacent_did_convoy B a s e))).filter
                (fun x => x ∈ insert current visited)).length)
              (insert current visited)
              (rest ++ (B.prov current).adjacent.filter (fun a =>
                adjacent_could_convoy B a && (!c || adjacent_did_convoy B a s e)))
              (trace ++ [current]) (by omega) le_rfl with ⟨f, r, hf⟩
            refine ⟨f + 1, r, ?_⟩
            simp only [convoy_is_possible_loop]
            rw [if_neg hcv, if_neg hend]
            exact hf

/-- The trace of processed provinces of the convoy search extends the
accumulator by a duplicate-free block of provinces not yet visited. -/
theorem convoy_loop_trace_nodup {n : ℕ} (B : VBoard n) (s e : Fin n) (c : Bool) :
    ∀ (fuel : ℕ) (visited : Finset (Fin n)) (queue trace0 : List (Fin n)) (r : Bool)
      (tr : List (Fin n)),
      convoy_is_possible_loop B s e c fuel visited queue trace0 = some (r, tr) →
      ∃ tr2, tr = trace0 ++ tr2 ∧ tr2.Nodup ∧ ∀ x ∈ tr2, x ∉ visited := by
  intro fuel
  induction fuel with
  | zero => intro _ _ _ _ _ h; cases h
  | succ f ih =>
    intro visited queue trace0 r tr h
    rcases queue with _ | ⟨current, rest⟩
    · simp only [convoy_is_possible_loop, Option.some.injEq, Prod.mk.injEq] at h
      exact ⟨[], by simp [h.2.symm], List.nodup_nil, by simp⟩
    · simp only [convoy_is_possible_loop] at h
      by_cases hcv : current ∈ visited
      · rw [if_pos hcv] at h
        exact ih _ _ _ _ _ h
      · rw [if_neg hcv] at h
        by_cases hend : e ∈ (B.prov current).adjacent
        · rw [if_pos hend] at h
          simp only [Option.some.injEq, Prod.mk.injEq] at h
          refine ⟨[current], h.2.symm, by simp, ?_⟩
          intro x hx
          rcases List.mem_singleton.mp hx with rfl
          exact hcv
        · rw [if_neg hend] at h
          rcases ih _ _ _ _ _ h with ⟨tr2, htr, hnd, hvis⟩
          refine ⟨current :: tr2, by simpa using htr, ?_, ?_⟩
          · rw [List.nodup_cons]
            exact ⟨fun hc => (hvis current hc) (Finset.mem_insert_self _ _), hnd⟩
          · intro x hx
            rcases List.mem_cons.mp hx with rfl | hx2
            · exact hcv
            · exact fun hxv => hvis x hx2 (Finset.mem_insert_of_mem hxv)

/-- `_adjudicate_convoys_for_order` terminates, by the same lexicographic
argument: every processed province enters `visited`, and enqueued convoy
provinces are never already in the new visited set. -/
theorem adj_convoys_loop_term {n : ℕ} (adj : Fin n → List (Fin n))
    (resolveO : ℕ → Resolution) (convoys : List (ℕ × Fin n)) (srcP dstP : Fin n) :
    ∀ (k1 k2 : ℕ) (visited : Finset (Fin n)) (queue trace : List (Fin n)),
      n - visited.card ≤ k1 → (queue.filter (fun x => x ∈ visited)).length ≤ k2 →
      ∃ fuel r, adjudicate_convoys_loop adj resolveO convoys srcP dstP fuel
        visited queue trace = some r := by
  have hstep : ∀ (visited : Finset (Fin n)) (current : Fin n)
      (rest trace : List (Fin n)),
      ¬(current ≠ srcP ∧ dstP ∈ adj current) →
      (∃ fuel r, adjudicate_convoys_loop adj resolveO convoys srcP dstP fuel
        (insert current visited)
        (rest ++ (convoys.filter (fun cv => cv.2 ∈ adj current ∧
            cv.2 ∉ insert current visited ∧
            resolveO cv.1 = Resolution.SUCCEEDS)).map Prod.snd)
        (trace ++ [current]) = some r) →
      ∃ fuel r, adjudicate_convoys_loop adj resolveO convoys srcP dstP fuel
        visited (current :: rest) trace = some r := by
    intro visited current rest trace hearly hrec
    rcases hrec with ⟨f, r, hf⟩
    refine ⟨f + 1, r, ?_⟩
    simp only [adjudicate_convoys_loop]
    rw [if_neg hearly]
    exact hf
  have henq : ∀ (visited : Finset (Fin n)) (current : Fin n),
      ((convoys.filter (fun cv => cv.2 ∈ adj current ∧
          cv.2 ∉ insert current visited ∧
          resolveO cv.1 = Resolution.SUCCEEDS)).map Prod.snd).filter
        (fun x => x ∈ insert current visited) = [] := by
    intro visited current
    rw [List.filter_eq_nil]
    intro a ha
    rcases List.mem_map.mp ha with ⟨cv, hcv2, rfl⟩
    have h5 := (List.mem_filter.mp hcv2).2
    simp only [decide_eq_true_eq] at h5
    simpa using h5.2.1
  intro k1
  induction k1 with
  | zero =>
    intro k2
    induction k2 with
    | zero =>
      intro visited queue trace h1 h2
      rcases queue with _ | ⟨current, rest⟩
      · exact ⟨1, (Resolution.FAILS, trace), rfl⟩
      · by_cases hearly : current ≠ srcP ∧ dstP ∈ adj current
        · refine ⟨1, (Resolution.SUCCEEDS, trace ++ [current]), ?_⟩
          simp only [adjudicate_convoys_loop]
          rw [if_pos hearly]
        · exfalso
          by_cases hcv : current ∈ visited
          · rw [List.filter_cons_of_pos (by simpa using hcv)] at h2
            simp at h2
          · have h3 : (insert current visited).card = visited.card + 1 :=
              Finset.card_insert_of_not_mem hcv
            have h4 := Finset.card_le_univ (insert current visited)
            rw [Fintype.card_fin] at h4
            omega
    | succ k2 ih2 =>
      intro visited queue trace h1 h2
      rcases queue with _ | ⟨current, rest⟩
      · exact ⟨1, (Resolution.FAILS, trace), rfl⟩
      · by_cases hearly : current ≠ srcP ∧ dstP ∈ adj current
        · refine ⟨1, (Resolution.SUCCEEDS, trace ++ [current]), ?_⟩
          simp only [adjudicate_convoys_loop]
          rw [if_pos hearly]
        · by_cases hcv : current ∈ visited
          · have hins : insert current visited = visited :=
              Finset.insert_eq_self.mpr hcv
            rw [List.filter_cons_of_pos (by simpa using hcv)] at h2
            simp only [List.length_cons] at h2
            refine hstep visited current rest trace hearly ?_
            rw [hins]
            refine ih2 visited _ (trace ++ [current]) h1 ?_
            rw [List.filter_append]
            have h6 := henq visited current
            rw [hins] at h6
            rw [h6, List.append_nil]
            omega
          · have h3 : (insert current visited).card = visited.card + 1 :=
              Finset.card_insert_of_not_mem hcv
            have h4 := Finset.card_le_univ (insert current visited)
            rw [Fintype.card_fin] at h4
            omega
  | succ k1 ih1 =>
    intro k2
    induction k2 with
    | zero =>
      intro visited queue trace h1 h2
      rcases queue with _ | ⟨current, rest⟩
      · exact ⟨1, (Resolution.FAILS, trace), rfl⟩
      · by_cases hearly : current ≠ srcP ∧ dstP ∈ adj current
        · refine ⟨1, (Resolution.SUCCEEDS, trace ++ [current]), ?_⟩
          simp only [adjudicate_convoys_loop]
          rw [if_pos hearly]
        · by_cases hcv : current ∈ visited
          · rw [List.filter_cons_of_pos (by simpa using hcv)] at h2
            simp at h2
          · have h3 : (insert current visited).card = visited.card + 1 :=
              Finset.card_insert_of_not_mem hcv
            refine hstep visited current rest trace hearly ?_
            refine ih1 _ (insert current visited) _ (trace ++ [current])
              (by omega) le_rfl
    | succ k2 ih2 =>
      intro visited queue trace h1 h2
      rcases queue with _ | ⟨current, rest⟩
      · exact ⟨1, (Resolution.FAILS, trace), rfl⟩
      · by_cases hearly : current ≠ srcP ∧ dstP ∈ adj current
        · refine ⟨1, (Resolution.SUCCEEDS, trace ++ [current]), ?_⟩
          simp only [adjudicate_convoys_loop]
          rw [if_pos hearly]
        · by_cases hcv : current ∈ visited
          · have hins : insert current visited = visited :=
              Finset.insert_eq_self.mpr hcv
            rw [List.filter_cons_of_pos (by simpa using hcv)] at h2
            simp only [List.length_cons] at h2
            refine hstep visited current rest trace hearly ?_
            rw [hins]
            refine ih2 visited _ (trace ++ [current]) h1 ?_
            rw [List.filter_append]
            have h6 := henq visited current
            rw [hins] at h6
            rw [h6, List.append_nil]
            omega
          · have h3 : (insert current visited).card = visited.card + 1 :=
              Finset.card_insert_of_not_mem hcv
            refine hstep visited current rest trace hearly ?_
            refine ih1 _ (insert current visited) _ (trace ++ [current])
              (by omega) le_rfl

/-- C9 (amended): on every finite board both breadth-first convoy searches
terminate — from any arguments some fuel suffices for `convoy_is_possible`
and for `adjudicate_convoys_for_order` to return a result.  In
`convoy_is_possible` the visited check at the pop ensures each province is
processed at most once (the trace of processed provinces is duplicate-free),
although an unvisited province can be enqueued several times.
`_adjudicate_convoys_for_order` has no visited check at the pop, so it can
process a province twice (see the counterexample); it still terminates. -/
theorem C9_convoy_searches_terminate {n : ℕ} (B : VBoard n) (s e : Fin n) (c : Bool)
    (adj : Fin n → List (Fin n)) (resolveO : ℕ → Resolution)
    (convoys : List (ℕ × Fin n)) (srcP dstP : Fin n) :
    (∃ fuel r, convoy_is_possible B fuel s e c = some r) ∧
    (∃ fuel r, adjudicate_convoys_for_order adj resolveO convoys srcP dstP fuel
      = some r) ∧
    (∀ fuel b tr, convoy_is_possible B fuel s e c = some (b, tr) → tr.Nodup) := by
  refine ⟨?_, ?_, ?_⟩
  · rcases convoy_loop_term B s e c n 1 ∅ [s] [] (by simp) (by simp) with ⟨f, r, hf⟩
    exact ⟨f, r, hf⟩
  · rcases adj_convoys_loop_term adj resolveO convoys srcP dstP n 1 ∅ [srcP] []
      (by simp) (by simp) with ⟨f, r, hf⟩
    exact ⟨f, r, hf⟩
  · intro fuel b tr h
    rcases convoy_loop_trace_nodup B s e c fuel ∅ [s] [] b tr h with ⟨tr2, htr, hnd, _⟩
    rw [htr, List.nil_append]
    exact hnd

/-- Witness for C9 on the concrete board of the C4 study: the search
completes with fuel 10 and its trace `[0]` is duplicate-free. -/
theorem C9_convoy_searches_terminate_witness :
    convoy_is_possible asymmetricConvoyBoard 10 0 1 true = some (false, [0]) ∧
    ([0] : List (Fin 3)).Nodup :=
  ⟨by decide,
    (C9_convoy_searches_terminate asymmetricConvoyBoard 0 1 true (fun _ => [])
      (fun _ => Resolution.FAILS) [] 0 0).2.2 10 false [0] (by decide)⟩

/-- C9 counterexample: `_adjudicate_convoys_for_order` does not visit each
province at most once.  With provinces 1 and 2 both adjacent to the source 0
and to each other, both holding succeeding convoys for the move 0 → 3,
province 2 is enqueued twice (once from 0, once from 1) before its first
pop, and is processed twice: the trace is `[0, 1, 2, 2]`. -/
theorem C9_counterexample_double_visit :
    adjudicate_convoys_for_order dupVisitAdj (fun _ => Resolution.SUCCEEDS)
      [(0, 1), (1, 2)] 0 3 10 = some (Resolution.FAILS, [0, 1, 2, 2]) ∧
    ¬ ([0, 1, 2, 2] : List (Fin 4)).Nodup := by
  refine ⟨?_, by decide⟩
  decide

/-- C4 (amended): when an army `Move` fails land validation it is retried as
a convoy (`order_is_valid` defers to `_validate_convoymove_order`), and the
retry classifies as follows — a non-army, a sea destination or a destination
equal to the unit's own province is INVALID outright; otherwise
VALID_WITH_CONVOY iff a convoy path with matching fleet orders exists from
the source to the destination; MISMATCHED_ORDER iff no such strict path
exists but an order-ignoring path exists from the DESTINATION BACK TO THE
SOURCE (the source checks the reversed direction, line 110); and INVALID iff
neither holds (the order-ignoring forward re-check on line 112 repeats the
strict search, so its VALID arm on line 114 is unreachable). -/
theorem C4_convoymove_classification {n : ℕ} (B : VBoard n) (fuel : ℕ)
    (p dest : Fin n) (u : VUnit n) (hu : (B.prov p).unit = some u)
    (v : OrderValidity) (h : validate_convoymove_order B fuel p dest = some v) :
    (u.unit_type ≠ UnitType.ARMY → v = OrderValidity.INVALID) ∧
    (u.unit_type = UnitType.ARMY → validate_move_army B p dest ≠ OrderValidity.VALID →
      order_is_valid_army_move B fuel p dest = some v) ∧
    (u.unit_type = UnitType.ARMY → (B.prov dest).ptype ≠ ProvinceType.SEA →
      dest ≠ p →
      ((v = OrderValidity.VALID_WITH_CONVOY ↔ ConvoyPathExists B p dest true) ∧
       (v = OrderValidity.MISMATCHED_ORDER ↔
         (¬ ConvoyPathExists B p dest true ∧ ConvoyPathExists B dest p false)) ∧
       (v = OrderValidity.INVALID ↔
         (¬ ConvoyPathExists B p dest true ∧ ¬ ConvoyPathExists B dest p false)))) := by
  refine ⟨?_, ?_, ?_⟩
  · intro hna
    simp only [validate_convoymove_order, hu] at h
    rw [if_pos hna] at h
    injection h with h2
    exact h2.symm
  · intro ha hne
    simp only [order_is_valid_army_move, hu, if_pos ha]
    rcases hv : validate_move_army B p dest
    · exact absurd hv hne
    · exact h
    · exact h
    · exact h
  · intro ha hsea hdp
    simp only [validate_convoymove_order, hu] at h
    rw [if_neg (not_not_intro ha), if_neg hsea, if_neg hdp] at h
    rcases h1 : convoy_is_possible B fuel p dest true with _ | ⟨b1, tr1⟩
    · simp only [h1] at h
      exact Option.noConfusion h
    · have hiff1 := convoy_result_iff B fuel p dest true b1 tr1 h1
      cases b1
      · simp only [h1] at h
        have hn1 : ¬ ConvoyPathExists B p dest true :=
          fun hc => absurd (hiff1.mp hc) (by decide)
        rcases h2 : convoy_is_possible B fuel dest p false with _ | ⟨b2, tr2⟩
        · simp only [h2] at h
          exact Option.noConfusion h
        · have hiff2 := convoy_result_iff B fuel dest p false b2 tr2 h2
          cases b2
          · have hn2 : ¬ ConvoyPathExists B dest p false :=
              fun hc => absurd (hiff2.mp hc) (by decide)
            simp only [h2] at h
            injection h with h3
            subst h3
            exact ⟨⟨fun hc => absurd hc (by decide), fun hc => absurd hc hn1⟩,
              ⟨fun hc => absurd hc (by decide), fun hc => absurd hc.2 hn2⟩,
              ⟨fun _ => ⟨hn1, hn2⟩, fun _ => rfl⟩⟩
          · have hp2 : ConvoyPathExists B dest p false := hiff2.mpr rfl
            simp only [h2] at h
            injection h with h3
            subst h3
            exact ⟨⟨fun hc => absurd hc (by decide), fun hc => absurd hc hn1⟩,
              ⟨fun _ => ⟨hn1, hp2⟩, fun _ => rfl⟩,
              ⟨fun hc => absurd hc (by decide), fun hc => absurd hp2 hc.2⟩⟩
      · have hp1 : ConvoyPathExists B p dest true := hiff1.mpr rfl
        simp only [h1] at h
        injection h with h3
        subst h3
        exact ⟨⟨fun _ => hp1, fun _ => rfl⟩,
          ⟨fun hc => absurd hc (by decide), fun hc => absurd hp1 hc.1⟩,
          ⟨fun hc => absurd hc (by decide), fun hc => absurd hp1 hc.1⟩⟩

/-- Witness for C4 on `asymmetricConvoyBoard`: the classification applies at
army `Move` 0 → 1 with fuel 10 and result INVALID. -/
theorem C4_convoymove_classification_witness :
    (OrderValidity.INVALID = OrderValidity.INVALID ↔
      (¬ ConvoyPathExists asymmetricConvoyBoard 0 1 true ∧
       ¬ ConvoyPathExists asymmetricConvoyBoard 1 0 false)) :=
  ((C4_convoymove_classification asymmetricConvoyBoard 10 0 1
    ⟨UnitType.ARMY, some (VOrder.Move 1)⟩ (by decide) OrderValidity.INVALID
    (by decide)).2.2 (by decide) (by decide) (by decide)).2.2

/-- C4 counterexample: on `asymmetricConvoyBoard` the order-ignoring search
from the source 0 to the destination 1 succeeds, the matching-orders search
fails, so the claim requires MISMATCHED_ORDER, but the code returns INVALID
(it runs the order-ignoring search in the reversed direction 1 → 0, which
fails over the one-way adjacency). -/
theorem C4_counterexample_reversed_path :
    convoy_is_possible asymmetricConvoyBoard 10 0 1 false = some (true, [0, 2]) ∧
    convoy_is_possible asymmetricConvoyBoard 10 0 1 true = some (false, [0]) ∧
    validate_convoymove_order asymmetricConvoyBoard 10 0 1
      = some OrderValidity.INVALID := by
  refine ⟨by decide, by decide, by decide⟩

/-- Pointwise effect of the backup-rule folds: each batch entry is set to
RESOLVED with resolution `r` when it satisfies `c`, to UNRESOLVED (keeping
its resolution) otherwise; everything else is untouched. -/
theorem rs_fold_point (c : ℕ → Bool) (r : Resolution) (batch : List ℕ) :
    ∀ (S : RSState) (i : ℕ),
      (batch.foldl (fun T j =>
        if c j then setRes (setSt T j ResolutionState.RESOLVED) j r
        else setSt T j ResolutionState.UNRESOLVED) S).deps = S.deps ∧
      ((batch.foldl (fun T j =>
        if c j then setRes (setSt T j ResolutionState.RESOLVED) j r
        else setSt T j ResolutionState.UNRESOLVED) S).st i =
        if i ∈ batch then
          (if c i then ResolutionState.RESOLVED else ResolutionState.UNRESOLVED)
        else S.st i) ∧
      ((batch.foldl (fun T j =>
        if c j then setRes (setSt T j ResolutionState.RESOLVED) j r
        else setSt T j ResolutionState.UNRESOLVED) S).res i =
        if i ∈ batch ∧ c i = true then r else S.res i) := by
  induction batch with
  | nil => intro S i; simp
  | cons x xs ih =>
    intro S i
    simp only [List.foldl_cons]
    rcases ih (if c x then setRes (setSt S x ResolutionState.RESOLVED) x r
      else setSt S x ResolutionState.UNRESOLVED) i with ⟨hd, hst, hres⟩
    refine ⟨?_, ?_, ?_⟩
    · rw [hd]
      split_ifs <;> simp [setRes, setSt]
    · rw [hst]
      by_cases hm : i ∈ xs
      · simp [hm]
      · by_cases hx : i = x
        · subst hx
          simp only [hm, if_false, List.mem_cons, true_or, if_true]
          split_ifs with hc <;> simp [setRes, setSt, hc]
        · have hnm : i ∉ x :: xs := by
            intro hcon
            rcases List.mem_cons.mp hcon with h1 | h1
            · exact hx h1
            · exact hm h1
          simp only [hm, if_false, hnm]
          split_ifs <;> simp [setRes, setSt, hx]
    · rw [hres]
      by_cases hm : i ∈ xs
      · by_cases hc : c i
        · simp [hm, hc]
        · rw [if_neg (by simp [hc])]
          by_cases hx : i = x
          · subst hx
            rw [if_neg (by simpa using hc)]
            simp [setSt, hc]
          · split_ifs <;> simp_all [setRes, setSt]
      · by_cases hx : i = x
        · subst hx
          simp only [hm, false_and, if_false]
          split_ifs with hc <;> simp_all [setRes, setSt]
        · have hnm : i ∉ x :: xs := by
            intro hcon
            rcases List.mem_cons.mp hcon with h1 | h1
            · exact hx h1
            · exact hm h1
          simp only [hm, false_and, if_false, hnm]
          split_ifs <;> simp [setRes, setSt, hx]

/-- Resetting states with `setSt` never touches the dependency stack. -/
theorem setSt_fold_deps (v : ResolutionState) (batch : List ℕ) :
    ∀ S : RSState, (batch.foldl (fun T i => setSt T i v) S).deps = S.deps := by
  induction batch with
  | nil => intro S; rfl
  | cons x xs ih =>
    intro S
    simp only [List.foldl_cons]
    rw [ih]
    rfl

/-- C1: `_backup_rule` pops the batch `deps[k:]`; if any order in the batch
is a CONVOY, every convoy in the batch becomes RESOLVED with FAILS and every
other batch order is reset to UNRESOLVED (Szykman rule), otherwise every
MOVE in the batch becomes RESOLVED with SUCCEEDS and every other batch order
is reset to UNRESOLVED; orders outside the batch are untouched.  Moreover
`_resolve_order` invokes exactly this rule when an order depends on its own
guess and the FAILS-guess and SUCCEEDS-guess adjudications disagree. -/
theorem C1_backup_rule (env : ℕ → MOrder) :
    (∀ (S : RSState) (k i : ℕ),
      (backup_rule env S k).deps = S.deps.take k ∧
      (i ∈ S.deps.drop k →
        (if (S.deps.drop k).any (fun j => (env j).otype == OrderType.CONVOY) then
          (if (env i).otype = OrderType.CONVOY then
            (backup_rule env S k).st i = ResolutionState.RESOLVED ∧
            (backup_rule env S k).res i = Resolution.FAILS
          else
            (backup_rule env S k).st i = ResolutionState.UNRESOLVED ∧
            (backup_rule env S k).res i = S.res i)
        else
          (if (env i).otype = OrderType.MOVE then
            (backup_rule env S k).st i = ResolutionState.RESOLVED ∧
            (backup_rule env S k).res i = Resolution.SUCCEEDS
          else
            (backup_rule env S k).st i = ResolutionState.UNRESOLVED ∧
            (backup_rule env S k).res i = S.res i))) ∧
      (i ∉ S.deps.drop k →
        (backup_rule env S k).st i = S.st i ∧
        (backup_rule env S k).res i = S.res i)) ∧
    (∀ (adjO : ℕ → RSState → RSState × Resolution) (fuel : ℕ) (S : RSState)
      (oid : ℕ) (S2 S6 : RSState) (first second : Resolution),
      S.st oid = ResolutionState.UNRESOLVED →
      (env oid).is_valid = true →
      adjO oid (setSt (setRes S oid Resolution.FAILS) oid ResolutionState.GUESSING)
        = (S2, first) →
      S2.deps.length ≠ S.deps.length →
      S2.deps.get? S.deps.length = some oid →
      adjO oid (setSt (setRes
          { (S2.deps.drop S.deps.length).foldl
              (fun T i => setSt T i ResolutionState.UNRESOLVED) S2 with
            deps := S2.deps.take S.deps.length }
          oid Resolution.SUCCEEDS) oid ResolutionState.GUESSING) = (S6, second) →
      first ≠ second →
      resolve_order env adjO (fuel + 1) S oid
        = resolve_order env adjO fuel (backup_rule env S6 S.deps.length) oid) := by
  constructor
  · intro S k i
    by_cases hany : (S.deps.drop k).any (fun j => (env j).otype == OrderType.CONVOY)
    · have hbr : backup_rule env S k = (S.deps.drop k).foldl (fun T j =>
          if (env j).otype == OrderType.CONVOY then
            setRes (setSt T j ResolutionState.RESOLVED) j Resolution.FAILS
          else setSt T j ResolutionState.UNRESOLVED)
          { S with deps := S.deps.take k } := by
        unfold backup_rule
        rw [if_pos hany]
      rcases rs_fold_point (fun j => (env j).otype == OrderType.CONVOY)
        Resolution.FAILS (S.deps.drop k) { S with deps := S.deps.take k } i with
        ⟨hd, hst, hres⟩
      rw [hbr]
      refine ⟨hd, ?_, ?_⟩
      · intro hmem
        rw [if_pos hany]
        by_cases hc : (env i).otype = OrderType.CONVOY
        · rw [if_pos hc, hst, hres]
          simp [hmem, hc]
        · rw [if_neg hc, hst, hres]
          constructor
          · simp only [hmem, if_true]
            rw [if_neg (by simpa using hc)]
          · rw [if_neg (fun h9 => hc (by simpa using h9.2))]
      · intro hmem
        rw [hst, hres]
        constructor
        · rw [if_neg hmem]
        · rw [if_neg (fun h9 => hmem h9.1)]
    · have hbr : backup_rule env S k = (S.deps.drop k).foldl (fun T j =>
          if (env j).otype == OrderType.MOVE then
            setRes (setSt T j ResolutionState.RESOLVED) j Resolution.SUCCEEDS
          else setSt T j ResolutionState.UNRESOLVED)
          { S with deps := S.deps.take k } := by
        unfold backup_rule
        rw [if_neg hany]
      rcases rs_fold_point (fun j => (env j).otype == OrderType.MOVE)
        Resolution.SUCCEEDS (S.deps.drop k) { S with deps := S.deps.take k } i with
        ⟨hd, hst, hres⟩
      rw [hbr]
      refine ⟨hd, ?_, ?_⟩
      · intro hmem
        rw [if_neg hany]
        by_cases hc : (env i).otype = OrderType.MOVE
        · rw [if_pos hc, hst, hres]
          simp [hmem, hc]
        · rw [if_neg hc, hst, hres]
          constructor
          · simp only [hmem, if_true]
            rw [if_neg (by simpa using hc)]
          · rw [if_neg (fun h9 => hc (by simpa using h9.2))]
      · intro hmem
        rw [hst, hres]
        constructor
        · rw [if_neg hmem]
        · rw [if_neg (fun h9 => hmem h9.1)]
  · intro adjO fuel S oid S2 S6 first second hst hval hadj1 hlen hget hadj2 hne
    rw [resolve_order]
    rw [if_neg (by simp [hst]), if_neg (by simp [hst]), if_neg (by simp [hval])]
    simp only [hadj1]
    rw [if_neg hlen, if_neg (not_not_intro hget)]
    rw [setSt_fold_deps ResolutionState.UNRESOLVED (S2.deps.drop S.deps.length) S2]
    simp only [hadj2]
    rw [if_neg hne]

/-- Witness for C1: with dependency stack `[5, 0, 1]`, popping at `k = 1`
resolves the convoy order 0 to FAILS under the Szykman rule. -/
theorem C1_backup_rule_witness :
    (backup_rule c1Env c1State 1).st 0 = ResolutionState.RESOLVED ∧
    (backup_rule c1Env c1State 1).res 0 = Resolution.FAILS := by
  have h0 := ((C1_backup_rule c1Env).1 c1State 1 0).2.1 (by decide)
  rwa [if_pos (show ((c1State.deps.drop 1).any
      (fun j => (c1Env j).otype == OrderType.CONVOY)) = true from by decide),
    if_pos (show (c1Env 0).otype = OrderType.CONVOY from by decide)] at h0

/-- C5 (amended): a unit whose submitted order fails validation (neither
VALID nor VALID_WITH_CONVOY) never aborts adjudication: its adjudicable
order is marked invalid, the original order's `has_failed` flag is set, and
`not_supportable` is set exactly when the order is a `Core` or `Move` —
whether the failure is INVALID or MISMATCHED_ORDER; the resolver then
resolves any invalid order to FAILS immediately (a hold in effect). -/
theorem C5_invalid_order_downgrade (kind : UOrderKind) (valid : OrderValidity)
    (hf0 : Bool) (hv : is_valid_result valid = false)
    (env : ℕ → MOrder) (adjO : ℕ → RSState → RSState × Resolution)
    (fuel oid : ℕ) (S : RSState)
    (hst : S.st oid = ResolutionState.UNRESOLVED)
    (hinv : (env oid).is_valid = false) :
    (validate_unit kind valid hf0).is_valid = false ∧
    (validate_unit kind valid hf0).has_failed = true ∧
    ((validate_unit kind valid hf0).not_supportable = true ↔
      (kind = UOrderKind.Core ∨ kind = UOrderKind.Move)) ∧
    resolve_order env adjO (fuel + 1) S oid
      = some (setSt (setRes S oid Resolution.FAILS) oid ResolutionState.RESOLVED,
          Resolution.FAILS) := by
  refine ⟨?_, ?_, ?_, ?_⟩
  · simp [validate_unit, hv]
  · simp [validate_unit, hv]
  · simp [validate_unit, hv]
  · rw [resolve_order]
    rw [if_neg (by simp [hst]), if_neg (by simp [hst]), if_pos hinv]

/-- Witness for C5: an INVALID move order is downgraded and the resolver
resolves order 0 to FAILS in one step. -/
theorem C5_invalid_order_downgrade_witness :
    (validate_unit UOrderKind.Move OrderValidity.INVALID false).is_valid = false ∧
    (validate_unit UOrderKind.Move OrderValidity.INVALID false).not_supportable
      = true ∧
    resolve_order c5Env (fun _ T => (T, Resolution.SUCCEEDS)) 1 c5State 0
      = some (setSt (setRes c5State 0 Resolution.FAILS) 0 ResolutionState.RESOLVED,
          Resolution.FAILS) := by
  have h := C5_invalid_order_downgrade UOrderKind.Move OrderValidity.INVALID false
    (by decide) c5Env (fun _ T => (T, Resolution.SUCCEEDS)) 0 0 c5State rfl rfl
  exact ⟨h.1, (h.2.2.1).mpr (Or.inr rfl), h.2.2.2⟩

/-- C5 counterexample: a `Move` whose validation result is MISMATCHED_ORDER
(not INVALID) still gets `not_supportable` — the code tests only
`isinstance(unit.order, (Core, Move))` under any failed validation, so the
claim's "exactly when the order is an INVALID Move or Core" is too narrow
(the source comments this deviation from standard adjudication). -/
theorem C5_counterexample_mismatched_move :
    (validate_unit UOrderKind.Move OrderValidity.MISMATCHED_ORDER false).not_supportable
      = true ∧
    OrderValidity.MISMATCHED_ORDER ≠ OrderValidity.INVALID := by decide

/-- `_adjudicate_move_order` fails whenever the destination's order belongs
to the mover's own country and is head-on or not a succeeding move. -/
theorem adjudicate_move_same_country_fails (E : MEnv)
    (resolveO cvO : ℕ → Resolution) (oid a : ℕ)
    (hatt : E.orderAtProv (E.orders oid).dest = some a)
    (hcond : (move_head_on E oid || !move_attacked_move E resolveO oid) = true)
    (hsame : (E.orders a).country = (E.orders oid).country) :
    adjudicate_move_order E resolveO cvO oid = Resolution.FAILS := by
  by_cases hcv : (E.orders oid).is_convoy = true ∧ cvO oid = Resolution.FAILS
  · simp only [adjudicate_move_order]
    rw [if_pos hcv]
  · simp only [adjudicate_move_order, hatt]
    rw [if_neg hcv, if_pos hcond, if_pos hsame]

/-- Contrapositive: a move that adjudicates to SUCCEEDS against a
same-country destination order can only do so because that order is itself
a MOVE resolving to SUCCEEDS. -/
theorem adjudicate_move_succeeds_defender (E : MEnv)
    (resolveO cvO : ℕ → Resolution) (oid a : ℕ)
    (hatt : E.orderAtProv (E.orders oid).dest = some a)
    (hsame : (E.orders a).country = (E.orders oid).country)
    (hadj : adjudicate_move_order E resolveO cvO oid = Resolution.SUCCEEDS) :
    (E.orders a).otype = OrderType.MOVE ∧ resolveO a = Resolution.SUCCEEDS := by
  by_cases hcond : (move_head_on E oid || !move_attacked_move E resolveO oid) = true
  · rw [adjudicate_move_same_country_fails E resolveO cvO oid a hatt hcond hsame]
      at hadj
    exact absurd hadj (by decide)
  · have h2 : move_attacked_move E resolveO oid = true := by
      rcases Bool.eq_false_or_eq_true (move_attacked_move E resolveO oid) with h3 | h3
      · exact h3
      · exfalso
        apply hcond
        rw [h3]
        simp
    simp only [move_attacked_move, hatt, Bool.and_eq_true, beq_iff_eq] at h2
    exact h2

/-- Pointwise occupancy equations for a processed successful move whose
source and destination differ. -/
theorem update_state_eq (env : ℕ → MOrder) (res : ℕ → Resolution) (s : UState)
    (x : ℕ) (h1 : (env x).otype = OrderType.MOVE)
    (h2 : res x = Resolution.SUCCEEDS) (hsd : (env x).source ≠ (env x).dest) :
    (∀ q, (update_order_state env res s x).unitAt q =
      if q = (env x).dest then some (env x).uid
      else if q = (env x).source ∧ s.unitAt (env x).source = some (env x).uid
        then none else s.unitAt q) ∧
    (∀ q, (update_order_state env res s x).dislodgedAt q =
      if q = (env x).dest then s.unitAt (env x).dest
      else if q = (env x).source ∧ s.dislodgedAt (env x).source = some (env x).uid
        then none else s.dislodgedAt q) := by
  constructor
  · intro q
    simp only [update_order_state, h1, h2, and_self, if_true]
  · intro q
    simp only [update_order_state, h1, h2, and_self, if_true]
    by_cases hq : q = (env x).dest
    · rw [if_pos hq, if_pos hq]
      rw [if_neg (fun hc => hsd hc.1.symm)]
    · rw [if_neg hq, if_neg hq]

/-- What a hit of the successful-move-into-`q` search certifies. -/
theorem incF_spec (env : ℕ → MOrder) (res : ℕ → Resolution) (L : List ℕ)
    (q m : ℕ) (h : incF env res L q = some m) :
    m ∈ L ∧ isSM env res m ∧ (env m).dest = q := by
  have h1 := List.mem_of_find?_eq_some h
  have h2 := List.find?_some h
  simp only [Bool.and_eq_true, beq_iff_eq] at h2
  exact ⟨h1, ⟨h2.1.1, h2.1.2⟩, h2.2⟩

/-- With at most one successful move per destination, the search finds
exactly the successful move into its destination. -/
theorem incF_eq_some (env : ℕ → MOrder) (res : ℕ → Resolution) (L : List ℕ)
    (Hinc : ∀ i j, i ∈ L → j ∈ L → isSM env res i → isSM env res j →
      (env i).dest = (env j).dest → i = j)
    (x : ℕ) (hx : x ∈ L) (hsm : isSM env res x) :
    incF env res L ((env x).dest) = some x := by
  rcases h : incF env res L ((env x).dest) with _ | m
  · exfalso
    have h3 := List.find?_eq_none.mp h x hx
    simp [hsm.1, hsm.2] at h3
  · rcases incF_spec env res L _ m h with ⟨hm, hsmm, hdm⟩
    rw [Hinc m x hm hx hsmm hsm hdm]

/-- Appending an id different from `m` does not change membership. -/
theorem mem_snoc_ne {m x : ℕ} {P : List ℕ} (h : m ≠ x) : m ∈ P ++ [x] ↔ m ∈ P := by
  simp [List.mem_append, h]

/-- One step of the `_update_order` fold preserves the occupancy
invariant. -/
theorem updInv_step (env : ℕ → MOrder) (res : ℕ → Resolution) (L : List ℕ)
    (occF : ℕ → Option ℕ)
    (Huid : ∀ i j, i ∈ L → j ∈ L → (env i).uid = (env j).uid → i = j)
    (Hinc : ∀ i j, i ∈ L → j ∈ L → isSM env res i → isSM env res j →
      (env i).dest = (env j).dest → i = j)
    (HoccL : ∀ q j, occF q = some j → j ∈ L ∧ (env j).source = q)
    (HsrcOcc : ∀ i, i ∈ L → occF ((env i).source) = some i)
    (Hss : ∀ i, i ∈ L → isSM env res i → (env i).source ≠ (env i).dest)
    (P : List ℕ) (x : ℕ) (hxL : x ∈ L) (hxP : x ∉ P)
    (s : UState) (hinv : updInv env res L occF P s) :
    updInv env res L occF (P ++ [x]) (update_order_state env res s x) := by
  by_cases hsm : isSM env res x
  case neg =>
    have hid : update_order_state env res s x = s := by
      unfold update_order_state
      rw [if_neg (show ¬((env x).otype = OrderType.MOVE ∧
        res x = Resolution.SUCCEEDS) from fun hc => hsm hc)]
    rw [hid]
    intro q
    rcases hinv q with ⟨hu, hd⟩
    have hcondj : ∀ j : ℕ,
        (isSM env res j ∧ j ∈ P) ↔ (isSM env res j ∧ j ∈ P ++ [x]) := by
      intro j
      constructor
      · rintro ⟨hj1, hj2⟩
        exact ⟨hj1, List.mem_append.mpr (Or.inl hj2)⟩
      · rintro ⟨hj1, hj2⟩
        rcases List.mem_append.mp hj2 with h3 | h3
        · exact ⟨hj1, h3⟩
        · rw [List.mem_singleton] at h3
          exact absurd (h3 ▸ hj1) hsm
    constructor
    · rw [hu]
      rcases h1 : incF env res L q with _ | m <;> rcases h2 : occF q with _ | j <;>
        simp only [h1, h2]
      · exact if_congr (hcondj j) rfl rfl
      · have hmne : m ≠ x :=
          fun h => hsm (h ▸ (incF_spec env res L q m h1).2.1)
        exact if_congr (mem_snoc_ne hmne).symm rfl rfl
      · have hmne : m ≠ x :=
          fun h => hsm (h ▸ (incF_spec env res L q m h1).2.1)
        exact if_congr (mem_snoc_ne hmne).symm rfl (if_congr (hcondj j) rfl rfl)
    · rw [hd]
      rcases h1 : incF env res L q with _ | m <;> rcases h2 : occF q with _ | j <;>
        simp only [h1, h2]
      have hmne : m ≠ x :=
        fun h => hsm (h ▸ (incF_spec env res L q m h1).2.1)
      exact if_congr (and_congr (mem_snoc_ne hmne).symm
        (not_congr (hcondj j))) rfl rfl
  case pos =>
    have hmv := hsm.1
    have hsc := hsm.2
    have hsd := Hss x hxL hsm
    have hoccsx := HsrcOcc x hxL
    have hincdx := incF_eq_some env res L Hinc x hxL hsm
    rcases update_state_eq env res s x hmv hsc hsd with ⟨hueq, hdeq⟩
    have hxmem : x ∈ P ++ [x] := List.mem_append.mpr (Or.inr (List.mem_singleton.mpr rfl))
    intro q
    rcases hinv q with ⟨hu, hd⟩
    constructor
    · rw [hueq q]
      by_cases hq1 : q = (env x).dest
      · rw [if_pos hq1]
        subst hq1
        simp only [hincdx]
        rw [if_pos hxmem]
      · rw [if_neg hq1]
        by_cases hq2 : q = (env x).source
        · subst hq2
          rcases h1 : incF env res L ((env x).source) with _ | m
          · simp only [h1, hoccsx] at hu ⊢
            rw [if_neg (fun hc => hxP hc.2)] at hu
            rw [if_pos ⟨trivial, hu⟩, if_pos ⟨hsm, hxmem⟩]
          · rcases incF_spec env res L _ m h1 with ⟨hmL, hmSM, hmd⟩
            have hmne : m ≠ x := fun h => hsd ((h ▸ hmd).symm)
            simp only [h1, hoccsx] at hu ⊢
            by_cases hmP : m ∈ P
            · rw [if_pos hmP] at hu
              have hune : (env m).uid ≠ (env x).uid :=
                fun h => hmne (Huid m x hmL hxL h)
              rw [if_neg (fun hc => hune (by rw [hu] at hc; exact Option.some.inj hc.2))]
              rw [hu, if_pos ((mem_snoc_ne hmne).mpr hmP)]

            · rw [if_neg hmP, if_neg (fun hc => hxP hc.2)] at hu
              rw [if_pos ⟨trivial, hu⟩]
              rw [if_neg (fun hc => hmP ((mem_snoc_ne hmne).mp hc))]
              rw [if_pos ⟨hsm, hxmem⟩]
        · rw [if_neg (fun hc => hq2 hc.1), hu]
          rcases h1 : incF env res L q with _ | m <;>
            rcases h2 : occF q with _ | j <;> simp only [h1, h2]
          · have hjne : j ≠ x := fun h => hq2 (by rw [← (HoccL q j h2).2, h])
            exact if_congr (and_congr Iff.rfl (mem_snoc_ne hjne).symm) rfl rfl
          · have hmne : m ≠ x :=
              fun h => hq1 (by rw [← (incF_spec env res L q m h1).2.2, h])
            exact if_congr (mem_snoc_ne hmne).symm rfl rfl
          · have hmne : m ≠ x :=
              fun h => hq1 (by rw [← (incF_spec env res L q m h1).2.2, h])
            have hjne : j ≠ x := fun h => hq2 (by rw [← (HoccL q j h2).2, h])
            exact if_congr (mem_snoc_ne hmne).symm rfl
              (if_congr (and_congr Iff.rfl (mem_snoc_ne hjne).symm) rfl rfl)
    · rw [hdeq q]
      by_cases hq1 : q = (env x).dest
      · rw [if_pos hq1]
        subst hq1
        rcases h2 : occF ((env x).dest) with _ | j
        · simp only [hincdx, h2] at hu ⊢
          rw [if_neg hxP] at hu
          exact hu
        · have hjne : j ≠ x := fun h =>
            hsd (by rw [← (HoccL _ j h2).2, h])
          simp only [hincdx, h2] at hu ⊢
          rw [if_neg hxP] at hu
          by_cases hj : isSM env res j ∧ j ∈ P
          · rw [if_pos hj] at hu
            rw [hu]
            rw [if_neg (fun hc => hc.2 ⟨hj.1, List.mem_append.mpr (Or.inl hj.2)⟩)]
          · rw [if_neg hj] at hu
            rw [hu]
            rw [if_pos ⟨hxmem, fun hc => hj ⟨hc.1, (mem_snoc_ne hjne).mp hc.2⟩⟩]
      · rw [if_neg hq1]
        by_cases hq2 : q = (env x).source
        · subst hq2
          rcases h1 : incF env res L ((env x).source) with _ | m
          · simp only [h1, hoccsx] at hd ⊢
            rw [hd]
            simp
          · rcases incF_spec env res L _ m h1 with ⟨hmL, hmSM, hmd⟩
            have hmne : m ≠ x := fun h => hsd ((h ▸ hmd).symm)
            simp only [h1, hoccsx] at hd ⊢
            by_cases hmP : m ∈ P
            · rw [if_pos ⟨hmP, fun hc => hxP hc.2⟩] at hd
              rw [if_pos ⟨trivial, hd⟩]
              rw [if_neg (fun hc => hc.2 ⟨hsm, hxmem⟩)]
            · rw [if_neg (fun hc => hmP hc.1)] at hd
              rw [if_neg (fun hc => Option.noConfusion (hd ▸ hc.2))]
              rw [hd]
              rw [if_neg (fun hc => hc.2 ⟨hsm, hxmem⟩)]
        · rw [if_neg (fun hc => hq2 hc.1), hd]
          rcases h1 : incF env res L q with _ | m <;>
            rcases h2 : occF q with _ | j <;> simp only [h1, h2]
          have hmne : m ≠ x :=
            fun h => hq1 (by rw [← (incF_spec env res L q m h1).2.2, h])
          have hjne : j ≠ x := fun h => hq2 (by rw [← (HoccL q j h2).2, h])
          exact if_congr (and_congr (mem_snoc_ne hmne).symm
            (not_congr (and_congr Iff.rfl (mem_snoc_ne hjne).symm))) rfl rfl

/-- The invariant holds initially: provinces hold their occupants' units
and no dislodged slot is filled. -/
theorem updInv_init (env : ℕ → MOrder) (res : ℕ → Resolution) (L : List ℕ)
    (occF : ℕ → Option ℕ) (s0 : UState)
    (Hu0 : ∀ q, s0.unitAt q = (occF q).map (fun j => (env j).uid))
    (Hd0 : ∀ q, s0.dislodgedAt q = none) :
    updInv env res L occF [] s0 := by
  intro q
  constructor
  · rw [Hu0 q]
    rcases h1 : incF env res L q with _ | m <;> rcases h2 : occF q with _ | j <;>
      simp [h1, h2]
  · rw [Hd0 q]
    rcases h1 : incF env res L q with _ | m <;> rcases h2 : occF q with _ | j <;>
      simp [h1, h2]

/-- Folding `_update_order` over the whole order list establishes the
invariant at the full list. -/
theorem updInv_fold (env : ℕ → MOrder) (res : ℕ → Resolution) (L : List ℕ)
    (occF : ℕ → Option ℕ)
    (Huid : ∀ i j, i ∈ L → j ∈ L → (env i).uid = (env j).uid → i = j)
    (Hinc : ∀ i j, i ∈ L → j ∈ L → isSM env res i → isSM env res j →
      (env i).dest = (env j).dest → i = j)
    (HoccL : ∀ q j, occF q = some j → j ∈ L ∧ (env j).source = q)
    (HsrcOcc : ∀ i, i ∈ L → occF ((env i).source) = some i)
    (Hss : ∀ i, i ∈ L → isSM env res i → (env i).source ≠ (env i).dest)
    (HL : L.Nodup) :
    ∀ (rest P : List ℕ) (s : UState), L = P ++ rest →
      updInv env res L occF P s →
      updInv env res L occF L (rest.foldl (update_order_state env res) s) := by
  intro rest
  induction rest with
  | nil =>
    intro P s hL hinv
    rw [List.foldl_nil]
    rw [List.append_nil] at hL
    rw [← hL] at hinv
    exact hinv
  | cons x rest ih =>
    intro P s hL hinv
    rw [List.foldl_cons]
    have hxL : x ∈ L := by
      rw [hL]
      exact List.mem_append.mpr (Or.inr (List.mem_cons_self _ _))
    have hxP : x ∉ P := by
      intro hc
      have hnd : (P ++ x :: rest).Nodup := hL ▸ HL
      exact (List.nodup_append.mp hnd).2.2 hc (List.mem_cons_self x rest)
    refine ih (P ++ [x]) (update_order_state env res s x) ?_
      (updInv_step env res L occF Huid Hinc HoccL HsrcOcc Hss P x hxL hxP s hinv)
    rw [hL, List.append_assoc]
    rfl

/-- C2: move adjudication fails whenever the destination's order belongs to
the mover's own country and is head-on or not a succeeding move; as a
consequence, on the mutated board every filled `dislodged_unit` slot holds
a unit whose country differs from the country of the successful move that
dislodged it (and from the unit now occupying the province). -/
theorem C2_no_self_dislodgement (E : MEnv) (res cvO : ℕ → Resolution)
    (L : List ℕ) (occF : ℕ → Option ℕ) (s0 : UState)
    (HL : L.Nodup)
    (Huid : ∀ i j, i ∈ L → j ∈ L → (E.orders i).uid = (E.orders j).uid → i = j)
    (Hinc : ∀ i j, i ∈ L → j ∈ L → isSM E.orders res i → isSM E.orders res j →
      (E.orders i).dest = (E.orders j).dest → i = j)
    (HoccL : ∀ q j, occF q = some j → j ∈ L ∧ (E.orders j).source = q)
    (HsrcOcc : ∀ i, i ∈ L → occF ((E.orders i).source) = some i)
    (Hss : ∀ i, i ∈ L → isSM E.orders res i →
      (E.orders i).source ≠ (E.orders i).dest)
    (Hprov : ∀ q, E.orderAtProv q = occF q)
    (Hfix : ∀ i, i ∈ L → isSM E.orders res i →
      adjudicate_move_order E res cvO i = Resolution.SUCCEEDS)
    (Hu0 : ∀ q, s0.unitAt q = (occF q).map (fun j => (E.orders j).uid))
    (Hd0 : ∀ q, s0.dislodgedAt q = none) :
    (∀ oid a, E.orderAtProv (E.orders oid).dest = some a →
      (move_head_on E oid || !move_attacked_move E res oid) = true →
      (E.orders a).country = (E.orders oid).country →
      adjudicate_move_order E res cvO oid = Resolution.FAILS) ∧
    (∀ q u m,
      (L.foldl (update_order_state E.orders res) s0).dislodgedAt q = some u →
      (L.foldl (update_order_state E.orders res) s0).unitAt q = some m →
      ∃ jo mo, occF q = some jo ∧ incF E.orders res L q = some mo ∧
        u = (E.orders jo).uid ∧ m = (E.orders mo).uid ∧
        (E.orders jo).country ≠ (E.orders mo).country) := by
  constructor
  · intro oid a hatt hcond hsame
    exact adjudicate_move_same_country_fails E res cvO oid a hatt hcond hsame
  · have hfinal := updInv_fold E.orders res L occF Huid Hinc HoccL HsrcOcc Hss HL
      L [] s0 (by simp)
      (updInv_init E.orders res L occF s0 Hu0 Hd0)
    intro q u m hdq huq
    rcases hfinal q with ⟨hu, hd⟩
    rcases h1 : incF E.orders res L q with _ | mo
    · simp only [h1] at hd
      rw [hd] at hdq
      exact Option.noConfusion hdq
    · rcases h2 : occF q with _ | jo
      · simp only [h1, h2] at hd
        rw [hd] at hdq
        exact Option.noConfusion hdq
      · simp only [h1, h2] at hd hu
        rcases incF_spec E.orders res L q mo h1 with ⟨hmoL, hmoSM, hmoD⟩
        by_cases hcondm : mo ∈ L ∧ ¬(isSM E.orders res jo ∧ jo ∈ L)
        · rw [if_pos hcondm] at hd
          rw [if_pos hmoL] at hu
          have hu1 : u = (E.orders jo).uid := by
            rw [hd] at hdq
            exact (Option.some.inj hdq).symm
          have hm1 : m = (E.orders mo).uid := by
            rw [hu] at huq
            exact (Option.some.inj huq).symm
          refine ⟨jo, mo, rfl, rfl, hu1, hm1, ?_⟩
          intro hceq
          have hjoL := (HoccL q jo h2).1
          have hnjo : ¬ isSM E.orders res jo := fun hc => hcondm.2 ⟨hc, hjoL⟩
          have hatt : E.orderAtProv (E.orders mo).dest = some jo := by
            rw [Hprov, hmoD, h2]
          have hdef := adjudicate_move_succeeds_defender E res cvO mo jo hatt
            hceq (Hfix mo hmoL hmoSM)
          exact hnjo ⟨hdef.1, hdef.2⟩
        · rw [if_neg hcondm] at hd
          rw [hd] at hdq
          exact Option.noConfusion hdq

/-- Witness for C2: country 0's supported move 0 → 1 dislodges country 1's
holding unit; the dislodged unit (11) and the mover (10) belong to
different countries. -/
theorem C2_no_self_dislodgement_witness :
    ∃ jo mo, c2occ 1 = some jo ∧ incF c2env c2res [0, 1, 2] 1 = some mo ∧
      (11 : ℕ) = (c2env jo).uid ∧ (10 : ℕ) = (c2env mo).uid ∧
      (c2env jo).country ≠ (c2env mo).country :=
  (C2_no_self_dislodgement c2E c2res (fun _ => Resolution.FAILS) [0, 1, 2] c2occ
    c2s0 (by decide)
    (by intro i j hi hj h; revert h; fin_cases hi <;> fin_cases hj <;> decide)
    (by
      intro i j hi hj h1 h2 h3
      revert h1 h2 h3
      fin_cases hi <;> fin_cases hj <;> decide)
    (by
      intro q j h
      simp only [c2occ] at h
      split_ifs at h with h0 h1 h2
      · injection h with h4
        subst h4
        subst h0
        exact ⟨by decide, by decide⟩
      · injection h with h4
        subst h4
        subst h1
        exact ⟨by decide, by decide⟩
      · injection h with h4
        subst h4
        subst h2
        exact ⟨by decide, by decide⟩)
    (by intro i hi; fin_cases hi <;> decide)
    (by intro i hi; fin_cases hi <;> decide)
    (fun q => rfl)
    (by intro i hi; fin_cases hi <;> decide)
    (fun q => rfl) (fun q => rfl)).2 1 11 10 (by decide) (by decide)

/-- C8: `_update_board` raises (the `none` branch, before any
`_update_order` call) whenever some adjudicable order's state is not
RESOLVED, leaving the board unchanged; when it returns a board, every order
was RESOLVED and the result is exactly the mutation fold — mutation happens
only after full resolution. -/
theorem C8_update_board_guard (env : ℕ → MOrder) (res : ℕ → Resolution)
    (st : ℕ → ResolutionState) (ids : List ℕ) (s : UState) :
    ((∃ i ∈ ids, st i ≠ ResolutionState.RESOLVED) →
      update_board env res st ids s = none) ∧
    (∀ s2, update_board env res st ids s = some s2 →
      (∀ i ∈ ids, st i = ResolutionState.RESOLVED) ∧
      s2 = ids.foldl (update_order_state env res) s) := by
  constructor
  · rintro ⟨i, hi, hne⟩
    unfold update_board
    rw [if_neg (fun hall => hne (by simpa using (List.all_eq_true.mp hall) i hi))]
  · intro s2 h
    unfold update_board at h
    split_ifs at h with hall
    · rw [List.all_eq_true] at hall
      refine ⟨fun i hi => by simpa using hall i hi, ?_⟩
      exact (Option.some.inj h).symm

/-- Witness for C8: with order 0 still UNRESOLVED the guard refuses to
mutate. -/
theorem C8_update_board_guard_witness :
    update_board c2env c2res (fun _ => ResolutionState.UNRESOLVED) [0] c2s0 = none :=
  (C8_update_board_guard c2env c2res (fun _ => ResolutionState.UNRESOLVED) [0]
    c2s0).1 ⟨0, by decide, by decide⟩
